import Mathlib

/-!
Verification of the QSR (quantum state reconstruction) training-step core
of `netket_qsr`, shallowly embedded from `src/netket_qsr/driver/qsr.py`.

Machine arrays are modelled as Lean lists; complex coefficients as pairs of
rationals (re, im); Python exceptions as an `Except` error type.  The
external netket operators are modelled by their `get_conn` interface: a
function from a configuration to the paired list of connected
configurations and matrix elements (netket's `get_conn` contract returns
two arrays with equal leading dimension, which the pairing encodes).
-/

namespace NetketQSR

/-- Complex coefficients, modelled as Gaussian integers (re, im): every
operation the verified claims exercise — copying, zeroing, conjugation,
doubling, subtraction, summation — stays within them.  Only the
operations the embedded code uses are defined. -/
abbrev CC := ℤ × ℤ

/-- Complex conjugation on the (re, im) pair model: `jnp.conj`. -/
def ccConj (z : CC) : CC := (z.1, -z.2)

/-- Multiplication by the real scalar 2: the `2.0 *` in `compose_grads`. -/
def ccTwo (z : CC) : CC := (2 * z.1, 2 * z.2)

/-- Complex subtraction, componentwise. -/
def ccSub (z w : CC) : CC := (z.1 - w.1, z.2 - w.2)

/-- The Python exceptions raised (or conspicuously not raised) by the code
paths the claims are about. -/
inductive PyErr where
  | valueError
  | typeError
  | assertionError
  | indexError
  | attributeError
deriving DecidableEq, Repr

/-- A rotation operator as consumed by `_convert_data`: netket's
`AbstractOperator` interface.  `localSize` is `op.hilbert.local_size`
(read once, before the conversion loop); `get_conn σ` returns the
connected configurations paired with their matrix elements. -/
structure RotOp where
  localSize : ℕ
  get_conn : List ℤ → List (List ℤ × CC)

/-- The one fixed single-qubit rotation matrices of `_build_rotation`
(`U_X`, Hadamard-like, and `U_Y`, the complex phase rotation), kept
symbolic: no claim depends on their numeric entries, only on which factors
are multiplied into the local operator. -/
inductive LocalGate where
  | UX
  | UY
deriving DecidableEq, Repr

/-- `_build_rotation(hi, basis)`: asserts `len(basis) == hi.size`, then
walks the labels, multiplying a local-operator factor into the product for
`'X'` and `'Y'`; `'Z'`/`'I'` are skipped by the explicit branch, and any
other label falls through every branch and is silently skipped too (the
source has no `else` clause).  The operator product is represented by the
ordered list of (site, gate) factors (the initial `constant=1.0` operator
is the empty product). -/
def rotationFactors : List Char → ℕ → List (ℕ × LocalGate)
  | [], _ => []
  | c :: rest, j =>
    (if c = 'X' then [(j, LocalGate.UX)]
     else if c = 'Y' then [(j, LocalGate.UY)]
     else []) ++ rotationFactors rest (j + 1)

def build_rotation (hiSize : ℕ) (basis : List Char) :
    Except PyErr (List (ℕ × LocalGate)) :=
  if basis.length = hiSize then
    Except.ok (rotationFactors basis 0)
  else
    Except.error PyErr.assertionError

/-- The raw `bases` argument of `_convert_data` / `_check_bases_type`: a
list of prebuilt operators, a list of label strings, or anything else
(neither a `list` nor an `np.ndarray`). -/
inductive BasesInput where
  | ops (l : List RotOp)
  | strs (l : List String)
  | other

/-- `_check_bases_type(Us)`: raises `ValueError` when the input is neither
a list nor an ndarray; indexing `Us[0]` on an empty collection raises
`IndexError`; a list of operators is returned unchanged; a list of strings
is compiled with `_build_rotation` over `Spin(0.5, N=len(Us[0]))`, i.e.
the site count is the first string's length (the `_cache` memoisation is
observationally the identity, since `_build_rotation` is deterministic,
and is dropped).  `sem` interprets a built rotation as a netket operator
(the `LocalOperator` semantics, external to this repository). -/
def check_bases_type (sem : List (ℕ × LocalGate) → RotOp) :
    BasesInput → Except PyErr (List RotOp)
  | BasesInput.other => Except.error PyErr.valueError
  | BasesInput.ops [] => Except.error PyErr.indexError
  | BasesInput.ops l => Except.ok l
  | BasesInput.strs [] => Except.error PyErr.indexError
  | BasesInput.strs (s :: rest) =>
    (List.mapM (fun b => (build_rotation s.length b.toList).map sem)
      (s :: rest))

/-- Accumulator of `_convert_data`'s conversion loop: the growing flat
buffers, the preallocated offsets array `secs` (written in place), the
running write position `last_i`, the running maximum `MAX_LEN` and the
loop-carried `Nc` variable. -/
structure ConvAcc where
  sigma_p : List (List ℤ)
  mels : List CC
  secs : List ℕ
  last_i : ℕ
  maxLen : ℕ
  lastNc : ℕ

/-- The loop body of `_convert_data`: for record `i`, `U.get_conn(sigma)`
is appended to the flat buffers (`ndarray.resize` enlarges with zero fill
and the new rows are immediately overwritten, which is an append),
`secs[i]` receives the previous write position, and `last_i`, `MAX_LEN`,
`Nc` are updated. -/
def convertLoop : List (List ℤ × RotOp) → ℕ → ConvAcc → ConvAcc
  | [], _, acc => acc
  | (sigma, U) :: rest, i, acc =>
    let conn := U.get_conn sigma
    let Nc := conn.length
    convertLoop rest (i + 1)
      { sigma_p := acc.sigma_p ++ conn.map Prod.fst
        mels := acc.mels ++ conn.map Prod.snd
        secs := acc.secs.set i acc.last_i
        last_i := acc.last_i + Nc
        maxLen := max Nc acc.maxLen
        lastNc := Nc }

/-- `arr[k:] = 0`: zero every entry from index `k` on. -/
def zeroFrom (l : List CC) (k : ℕ) : List CC :=
  l.take k ++ List.replicate (l.length - k) 0

/-- `arr[k:, :] = 0` on a 2-d buffer with row width `n`. -/
def zeroRowsFrom (l : List (List ℤ)) (k n : ℕ) : List (List ℤ) :=
  l.take k ++ List.replicate (l.length - k) (List.replicate n 0)

/-- The converted dataset returned by `_convert_data`:
`(sigma_p, mels, secs, MAX_LEN)`. -/
structure ConvertedData where
  sigma_p : List (List ℤ)
  mels : List CC
  secs : List ℕ
  max_len : ℕ

/-- The body of `_convert_data` after `_check_bases_type`: the conversion
loop over `zip(sigma_s, Us)` (which silently truncates to the shorter
input), then the final padding block: both flat buffers are enlarged by
`MAX_LEN` zero entries (`ndarray.resize` zero-fills), the slice from
`last_i + Nc` on is assigned zero, and `secs[-1]` is set to `last_i`. -/
def convert_data_core (sigma_s : List (List ℤ)) (Us : List RotOp) :
    ConvertedData :=
  let N := (sigma_s.head?.elim 0 List.length)
  let Nb := sigma_s.length
  let Nc0 := (Us.head?.elim 0 RotOp.localSize)
  let acc := convertLoop (sigma_s.zip Us) 0
    ⟨[], [], List.replicate (Nb + 1) 0, 0, 0, Nc0⟩
  let sp := acc.sigma_p ++ List.replicate acc.maxLen (List.replicate N 0)
  let ml := acc.mels ++ List.replicate acc.maxLen 0
  let sp2 := zeroRowsFrom sp (acc.last_i + acc.lastNc) N
  let ml2 := zeroFrom ml (acc.last_i + acc.lastNc)
  { sigma_p := sp2
    mels := ml2
    secs := acc.secs.set Nb acc.last_i
    max_len := acc.maxLen }

/-- `_convert_data(sigma_s, Us)`: basis check, then conversion.  No check
relates `len(sigma_s)` to `len(Us)` (the source carries a TODO for it). -/
def convert_data (sem : List (ℕ × LocalGate) → RotOp)
    (sigma_s : List (List ℤ)) (Us : BasesInput) :
    Except PyErr ConvertedData :=
  (check_bases_type sem Us).map (convert_data_core sigma_s)

/-- `dst[start : start + len(src)] = src` on a buffer list (numpy slice
assignment; every use in the verified claims is in range, where this
splice is exactly the numpy semantics). -/
def setSlice (buf : List α) (start : ℕ) (src : List α) : List α :=
  buf.take start ++ src ++ buf.drop (start + src.length)

/-- `arr[a:b]`, a numpy basic slice (clamping at the array end). -/
def sliceList (l : List α) (a b : ℕ) : List α :=
  (l.drop a).take (b - a)

/-- Accumulator of `_compose_sampled_data`'s copy loop: the preallocated
output buffers, the output offsets `_secs`, the write position `last_i`
and the running `_maxlen`. -/
structure ComposeAcc where
  sp : List (List ℤ)
  ml : List CC
  sc : List ℕ
  last : ℕ
  maxlen : ℕ

/-- The loop body of `_compose_sampled_data`: for the `n`-th sampled index
`i`, the dataset slice `[secs[i], secs[i+1])` is copied to the write
position in both buffers, `_secs[n+1]` receives the new write position and
the maximum segment length is updated. -/
def composeLoop (sigma_p : List (List ℤ)) (mels : List CC) (secs : List ℕ) :
    List ℕ → ℕ → ComposeAcc → ComposeAcc
  | [], _, acc => acc
  | i :: rest, n, acc =>
    let start := secs.getD i 0
    let stop := secs.getD (i + 1) 0
    let len := stop - start
    composeLoop sigma_p mels secs rest (n + 1)
      { sp := setSlice acc.sp acc.last (sliceList sigma_p start stop)
        ml := setSlice acc.ml acc.last (sliceList mels start stop)
        sc := acc.sc.set (n + 1) (acc.last + len)
        last := acc.last + len
        maxlen := max acc.maxlen len }

/-- The batch returned by `_compose_sampled_data`:
`(_sigma_p, _mels, _secs, _maxlen)`. -/
structure ComposedData where
  sigma_p : List (List ℤ)
  mels : List CC
  secs : List ℕ
  maxlen : ℕ

/-- `_compose_sampled_data(sigma_p, mels, secs, MAX_LEN, sampled_indices,
min_padding_factor=128)`: zero buffers of `N_samples * MAX_LEN` entries
are allocated, the copy loop runs, then both flat buffers are cut by the
slice `[:padded_size]` with
`padded_size = max(MAX_LEN, min_padding_factor) * ceil(last_i / ...)`;
a numpy slice clamps at the buffer length, so the result holds
`min(padded_size, N_samples * MAX_LEN)` entries. -/
def compose_sampled_data (sigma_p : List (List ℤ)) (mels : List CC)
    (secs : List ℕ) (MAX_LEN : ℕ) (sampled_indices : List ℕ)
    (min_padding_factor : ℕ) : ComposedData :=
  let N_samples := sampled_indices.length
  let N := (sigma_p.head?.elim 0 List.length)
  let acc := composeLoop sigma_p mels secs sampled_indices 0
    ⟨List.replicate (N_samples * MAX_LEN) (List.replicate N 0),
     List.replicate (N_samples * MAX_LEN) 0,
     List.replicate (N_samples + 1) 0, 0, 0⟩
  let padding_factor := max MAX_LEN min_padding_factor
  let padded_size := padding_factor *
    ((acc.last + padding_factor - 1) / padding_factor)
  { sigma_p := acc.sp.take padded_size
    mels := acc.ml.take padded_size
    secs := acc.sc
    maxlen := acc.maxlen }

/-- `jnp.repeat(vals, reps, total_repeat_length=total)` for a 1-d `vals`:
each `vals[i]` is repeated `reps[i]` times, and the result is truncated,
or padded with the final value of `vals`, to exactly `total` entries
(the documented jax semantics of `total_repeat_length`). -/
def repeatTRL (vals reps : List ℕ) (total : ℕ) : List ℕ :=
  let base := ((vals.zip reps).map
    (fun p => List.replicate p.2 p.1)).flatten
  base.take total ++ List.replicate (total - base.length) (vals.getLastD 0)

/-- `jax.ops.segment_sum(arr, indices, num_segments=num)`: entry `k` of
the result is the sum of the `arr` entries whose index equals `k`
(`indices_are_sorted` is a performance hint only). -/
def segment_sum [AddCommMonoid α] (arr : List α) (indices : List ℕ)
    (num : ℕ) : List α :=
  (List.range num).map (fun k =>
    (((arr.zip indices).filter (fun p => p.2 = k)).map Prod.fst).sum)

/-- `sum_sections(arr, secs)`: builds the per-entry segment indices with
`jnp.repeat(arange(N_rows), sizes, total_repeat_length=arr.size)` and
segment-sums `arr` with them. -/
def sum_sections [AddCommMonoid α] (arr : List α) (secs : List ℕ) :
    List α :=
  let offsets := secs.dropLast
  let sizes := (secs.tail.zip offsets).map (fun p => p.1 - p.2)
  let N_rows := secs.length - 1
  let indices := repeatTRL (List.range N_rows) sizes arr.length
  segment_sum arr indices N_rows

/-- A jax pytree with leaves of type `α`: nested containers of arrays.
Nesting is modelled by binary nodes, which suffices for the element-wise
`tree_map` operations the claims are about. -/
inductive PyTree (α : Type) where
  | leaf : α → PyTree α
  | node : PyTree α → PyTree α → PyTree α
deriving DecidableEq

/-- A parameter / gradient leaf: a flat array of complex values together
with its declared dtype (`jnp.iscomplexobj`). -/
structure Leaf where
  vals : List CC
  isComplex : Bool
deriving DecidableEq

/-- `jax.tree_map(f, a, b)`: element-wise map over two trees; jax raises
on a structure mismatch, here `none`. -/
def treeMap2 (f : α → β → γ) : PyTree α → PyTree β → Option (PyTree γ)
  | PyTree.leaf a, PyTree.leaf b => some (PyTree.leaf (f a b))
  | PyTree.node a b, PyTree.node c d => do
    let l ← treeMap2 f a c
    let r ← treeMap2 f b d
    pure (PyTree.node l r)
  | _, _ => none

/-- The leaf operation of `compose_grads`: `2.0 * jnp.conj(x - y)`,
element-wise on the leaf arrays (jax dtype promotion on the tag). -/
def composeGradLeaf (x y : Leaf) : Leaf :=
  ⟨(x.vals.zip y.vals).map (fun p => ccTwo (ccConj (ccSub p.1 p.2))),
   x.isComplex || y.isComplex⟩

/-- `compose_grads(grad_neg, grad_pos)`: the loss-gradient tree
`2 * conj(grad_neg - grad_pos)`. -/
def compose_grads (grad_neg grad_pos : PyTree Leaf) :
    Option (PyTree Leaf) :=
  treeMap2 composeGradLeaf grad_neg grad_pos

/-- The leaf operation of the final projection in
`QSR._forward_and_backward`:
`x if jnp.iscomplexobj(target) else x.real`. -/
def projectLeaf (x target : Leaf) : Leaf :=
  if target.isComplex then x
  else ⟨x.vals.map (fun z => (z.1, 0)), false⟩

/-- The real-parameter projection `jax.tree_map(lambda x, target: ...,
dp, parameters)` at the end of a training step. -/
def realProject (dp params : PyTree Leaf) : Option (PyTree Leaf) :=
  treeMap2 projectLeaf dp params

/-- `netket.optimizer.identity_preconditioner`: the identity map on the
gradient tree. -/
def identity_preconditioner : PyTree Leaf → PyTree Leaf := id

/-- The tail of `QSR._forward_and_backward` after both phase gradients
are available: `loss_grad = compose_grads(...)`, `dp =
preconditioner(state, loss_grad)` (the state argument carries no
information the update depends on beyond the parameters, which are passed
separately here), then the real-parameter projection of `dp` against the
parameter tree.  The returned value is the step's parameter update. -/
def forward_and_backward_update (precond : PyTree Leaf → PyTree Leaf)
    (params grad_neg grad_pos : PyTree Leaf) : Option (PyTree Leaf) := do
  let lossGrad ← compose_grads grad_neg grad_pos
  let dp := precond lossGrad
  realProject dp params

/-- Element-wise value equality of two trees of leaves, disregarding the
dtype tags (the sense in which two jax arrays are compared entry by
entry). -/
def treeValsEqB : PyTree Leaf → PyTree Leaf → Bool
  | PyTree.leaf a, PyTree.leaf b => a.vals = b.vals
  | PyTree.node a b, PyTree.node c d => treeValsEqB a c && treeValsEqB b d
  | _, _ => false

/-- Every leaf of the gradient tree `g` sitting at a real-dtype parameter
leaf of `params` has all imaginary parts zero (and the trees share their
structure). -/
def realImagZeroB : PyTree Leaf → PyTree Leaf → Bool
  | PyTree.leaf g, PyTree.leaf p =>
    p.isComplex || g.vals.all (fun z => z.2 = 0)
  | PyTree.node a b, PyTree.node c d =>
    realImagZeroB a c && realImagZeroB b d
  | _, _ => false

/-- The per-leaf specification of the real-parameter projection: at a
real-dtype parameter leaf the update leaf has zero imaginary parts, at a
complex one it equals the raw (preconditioned) gradient leaf unchanged. -/
def ProjSpec : PyTree Leaf → PyTree Leaf → PyTree Leaf → Prop
  | PyTree.leaf d, PyTree.leaf p, PyTree.leaf u =>
    (p.isComplex = false → ∀ z ∈ u.vals, z.2 = 0) ∧
    (p.isComplex = true → u = d)
  | PyTree.node d1 d2, PyTree.node p1 p2, PyTree.node u1 u2 =>
    ProjSpec d1 p1 u1 ∧ ProjSpec d2 p2 u2
  | _, _, _ => False

/-- The external random-number machinery, modelled as pure deterministic
functions (the contracts of `nkjax.PRNGKey`, `nkjax.mpi_split` and
`np.random.default_rng(...).integers`): keys and generator states are
opaque naturals; `integersStep state bound count` returns the drawn index
list and the advanced generator state. -/
structure RngModel where
  prngKey : ℕ → ℕ
  mpiSplit : ℕ → ℕ → ℕ → ℕ
  integersStep : ℕ → ℕ → ℕ → List ℕ × ℕ

/-- Insertion of an element into a sorted list, for `np.sort`. -/
def insertSorted (x : ℕ) : List ℕ → List ℕ
  | [] => [x]
  | y :: ys => if x ≤ y then x :: y :: ys else y :: insertSorted x ys

/-- `np.sort`, as an insertion sort on the drawn index list. -/
def npSort (l : List ℕ) : List ℕ := l.foldr insertSorted []

/-- The per-step driver state that the batch-index sampling touches:
the numpy generator `_rng`, the dataset size `_training_samples_n`, the
batch size, plus the step-varying fields a run also mutates
(`_sampled_indices`, the step counter) which the sampling must not depend
on. -/
structure DriverRngState where
  rng : ℕ
  trainingN : ℕ
  batchSize : ℕ
  sampledIdx : List ℕ
  stepCount : ℕ
deriving DecidableEq

/-- The index-sampling statement of `QSR._forward_and_backward`:
`np.sort(self._rng.integers(self._training_samples_n,
size=(self.training_batch_size,)))`, advancing the generator. -/
def drawIndices (M : RngModel) (s : DriverRngState) :
    List ℕ × DriverRngState :=
  let r := M.integersStep s.rng s.trainingN s.batchSize
  let sorted := npSort r.1
  (sorted, { s with rng := r.2, sampledIdx := sorted,
                    stepCount := s.stepCount + 1 })

/-- The sequence of sampled batch-index arrays drawn by `t` consecutive
training steps from driver state `s`. -/
def indexTrace (M : RngModel) (s : DriverRngState) : ℕ → List (List ℕ)
  | 0 => []
  | t + 1 =>
    let r := drawIndices M s
    r.1 :: indexTrace M r.2 t

/-- The `_rng` initialisation of `QSR.__init__`:
`np.random.default_rng(np.asarray(nkjax.mpi_split(nkjax.PRNGKey(seed))))`
— the split depends on the worker group size and the worker's rank. -/
def initRng (M : RngModel) (seed nWorkers rank : ℕ) : ℕ :=
  M.mpiSplit nWorkers rank (M.prngKey seed)

/-- `QSR.__init__` for the sampling state: generator from the root seed,
dataset size `len(secs) - 1`, batch size; no indices drawn yet. -/
def initDriverRng (M : RngModel) (seed nWorkers rank N bs : ℕ) :
    DriverRngState :=
  { rng := initRng M seed nWorkers rank, trainingN := N, batchSize := bs,
    sampledIdx := [], stepCount := 0 }

/-- The attributes of a `QSR` driver the claims touch: the converted
training dataset (set in `__init__`) and the per-step batch attributes
`_sigma_p`, `_mels`, `_secs`, `_maxlen`, which do not exist until the
first `_forward_and_backward` call assigns them (`none` models the absent
attribute). -/
structure QSRDriver where
  training_sigma_p : List (List ℤ)
  training_mels : List CC
  training_secs : List ℕ
  training_max_len : ℕ
  training_samples_n : ℕ
  training_batch_size : ℕ
  rng : ℕ
  batch : Option ComposedData

/-- `QSR.__init__`: converts the training data, stores the converted
arrays and `len(secs) - 1`, seeds the generator, and creates none of the
per-step batch attributes. -/
def QSR_init (M : RngModel) (seed nWorkers rank : ℕ)
    (sigma_s : List (List ℤ)) (Us : List RotOp) (bs : ℕ) : QSRDriver :=
  let cd := convert_data_core sigma_s Us
  { training_sigma_p := cd.sigma_p
    training_mels := cd.mels
    training_secs := cd.secs
    training_max_len := cd.max_len
    training_samples_n := cd.secs.length - 1
    training_batch_size := bs
    rng := initRng M seed nWorkers rank
    batch := none }

/-- The batch-producing part of `QSR._forward_and_backward`: draw and
sort the indices, compose the batch, and assign the `_sigma_p`, `_mels`,
`_secs`, `_maxlen` attributes (the gradient computation around it does not
touch these attributes). -/
def QSR_step (M : RngModel) (d : QSRDriver) : QSRDriver :=
  let r := M.integersStep d.rng d.training_samples_n d.training_batch_size
  let idxs := npSort r.1
  let b := compose_sampled_data d.training_sigma_p d.training_mels
    d.training_secs d.training_max_len idxs 128
  { d with rng := r.2, batch := some b }

/-- The attribute reads at the head of `QSR.nll()`: `self._sigma_p`,
`self._mels`, `self._secs`.  Reading a never-assigned attribute raises
`AttributeError`; when the attributes exist the read batch is returned
(the numeric body that follows — `local_value_rotated_amplitude`, the
brute-force log-normalisation — consumes exactly these values and is
floating-point, outside this embedding). -/
def QSR_nll (d : QSRDriver) :
    Except PyErr (List (List ℤ) × List CC × List ℕ) :=
  match d.batch with
  | none => Except.error PyErr.attributeError
  | some b => Except.ok (b.sigma_p, b.mels, b.secs)

/-! ## Theorems -/

/-- The label normalisation used to express that `_build_rotation`
treats an unrecognised label exactly like `'I'`. -/
def normalizeLabel (c : Char) : Char :=
  if c = 'X' ∨ c = 'Y' ∨ c = 'Z' ∨ c = 'I' then c else 'I'

lemma rotationFactors_normalize (basis : List Char) :
    ∀ j, rotationFactors (basis.map normalizeLabel) j =
      rotationFactors basis j := by
  induction basis with
  | nil => intro j; rfl
  | cons c rest ih =>
    intro j
    simp only [List.map_cons, rotationFactors, ih]
    congr 1
    by_cases h1 : c = 'X'
    · subst h1; rfl
    by_cases h2 : c = 'Y'
    · subst h2; rfl
    by_cases h3 : c = 'Z'
    · subst h3; rfl
    by_cases h4 : c = 'I'
    · subst h4; rfl
    have hn : normalizeLabel c = 'I' := by
      simp [normalizeLabel, h1, h2, h3, h4]
    rw [hn]
    simp [h1, h2]

/-- Claim C5, counterexample: the claim says building the rotation
operator fails when a per-site label is not one of the recognised symbols
`X`, `Y`, `Z`, `I`; but `_build_rotation` over a one-site space with the
unrecognised label `'W'` succeeds, returning the empty factor product
(the label falls through every branch of the loop). -/
theorem C5_label_counterexample :
    build_rotation 1 ['W'] = Except.ok [] ∧
      'W' ∉ ['X', 'Y', 'Z', 'I'] := by
  constructor
  · rfl
  · decide

/-- Claim C5, amended: building the rotation operator fails — with an
assertion error, from `assert len(basis) == hi.size` — exactly when the
descriptor's length differs from the number of sites; a per-site label
outside the recognised symbols does not fail but is silently skipped,
acting exactly like the identity label `'I'`. -/
theorem C5_build_rotation_errors (hiSize : ℕ) (basis : List Char) :
    ((build_rotation hiSize basis).isOk = true ↔ basis.length = hiSize) ∧
    (basis.length ≠ hiSize →
      build_rotation hiSize basis = Except.error PyErr.assertionError) ∧
    build_rotation hiSize basis =
      build_rotation hiSize (basis.map normalizeLabel) := by
  refine ⟨?_, ?_, ?_⟩
  · unfold build_rotation
    by_cases h : basis.length = hiSize
    · simp [h, Except.isOk, Except.toBool]
    · simp [h, Except.isOk, Except.toBool]
  · intro h
    unfold build_rotation
    simp [h]
  · unfold build_rotation
    rw [List.length_map, rotationFactors_normalize]

/-- A concrete external operator (one spin-1/2 site, two connected
configurations per sample), used to evaluate the conversion and batch
composition on concrete data. -/
def testOpA : RotOp :=
  { localSize := 2
    get_conn := fun sigma => [(sigma, (1, 0)), (sigma.map (fun x => -x), (-1, 0))] }

/-- Claim C4: `_convert_data` on two samples but only one basis — the
leading lengths differ — raises no validation error: `zip` silently stops
at the shorter input and the conversion returns normally (the source even
carries `TODO: add Error message when user tries to convert less or more
sigmas than Us`).  This evaluates the code at the failing input. -/
theorem C4_missing_length_validation :
    ∃ cd, convert_data (fun _ => testOpA) [[1], [-1]]
      (BasesInput.ops [testOpA]) = Except.ok cd :=
  ⟨_, rfl⟩

/-- Claim C10: `nll()` on a freshly constructed driver fails with an
`AttributeError` — the batch attributes `_sigma_p`, `_mels`, `_secs` it
reads are only assigned by `_forward_and_backward`, never by
`__init__` — and after any training step the read succeeds. -/
theorem C10_nll_before_first_step :
    ∀ (M : RngModel) (seed nWorkers rank : ℕ) (sigma_s : List (List ℤ))
      (Us : List RotOp) (bs : ℕ),
      QSR_nll (QSR_init M seed nWorkers rank sigma_s Us bs) =
        Except.error PyErr.attributeError ∧
      ∀ d : QSRDriver,
        (QSR_nll (QSR_step M d)).toOption.isSome = true := by
  intro M seed nWorkers rank sigma_s Us bs
  exact ⟨rfl, fun d => rfl⟩

/-- Claim C8: the batch-index sampling is a deterministic function of the
generator stream (derived from the seed, worker count and worker rank)
and the fixed dataset/batch sizes: two driver states that agree on these
— however much the rest of their step-varying state differs — draw
identical sequences of sorted batch-index arrays, step after step. -/
theorem C8_reproducible_sampling (M : RngModel) (s₁ s₂ : DriverRngState)
    (t : ℕ) (hrng : s₁.rng = s₂.rng) (hN : s₁.trainingN = s₂.trainingN)
    (hbs : s₁.batchSize = s₂.batchSize) :
    indexTrace M s₁ t = indexTrace M s₂ t := by
  induction t generalizing s₁ s₂ with
  | zero => rfl
  | succ t ih =>
    have hdraw : M.integersStep s₁.rng s₁.trainingN s₁.batchSize =
        M.integersStep s₂.rng s₂.trainingN s₂.batchSize := by
      rw [hrng, hN, hbs]
    simp only [indexTrace, drawIndices, hdraw]
    congr 1
    exact ih _ _ rfl hN hbs

/-- A concrete deterministic RNG model for the C8 witness. -/
def rngModelW : RngModel :=
  { prngKey := fun seed => seed + 1
    mpiSplit := fun nW rank key => key * nW + rank
    integersStep := fun state bound count =>
      (List.replicate count (state % (bound + 1)), state + 7) }

/-- Two runs from the same seed, worker count and rank, one of them with
a different step counter and stale sampled indices. -/
def driverStateW1 : DriverRngState := initDriverRng rngModelW 5 2 1 10 3

def driverStateW2 : DriverRngState :=
  { driverStateW1 with sampledIdx := [4, 4, 4], stepCount := 99 }

/-- Witness for C8 at a concrete RNG model and concrete states. -/
theorem C8_witness :
    indexTrace rngModelW driverStateW1 3 =
      indexTrace rngModelW driverStateW2 3 :=
  C8_reproducible_sampling rngModelW driverStateW1 driverStateW2 3
    rfl rfl rfl

/-- Claim C7: for every raw (preconditioned) update tree and matching
parameter tree, the projected update satisfies: at every real-dtype
parameter leaf all imaginary parts are zero — whatever the imaginary
component of the raw update — and every complex-dtype leaf passes through
unchanged. -/
theorem C7_real_projection (dp params u : PyTree Leaf)
    (h : realProject dp params = some u) : ProjSpec dp params u := by
  induction dp generalizing params u with
  | leaf d =>
    cases params with
    | leaf p =>
      simp only [realProject, treeMap2, Option.some.injEq] at h
      subst h
      by_cases hc : p.isComplex
      · exact ⟨fun hf => by rw [hf] at hc; exact absurd hc (by simp),
          fun _ => by simp [projectLeaf, hc]⟩
      · refine ⟨fun _ => ?_, fun ht => absurd ht (by simp [hc])⟩
        intro z hz
        simp only [projectLeaf, hc, if_neg, Bool.false_eq_true,
          ite_false] at hz
        obtain ⟨w, _, rfl⟩ := List.mem_map.mp hz
        rfl
    | node p1 p2 => simp [realProject, treeMap2] at h
  | node d1 d2 ih1 ih2 =>
    cases params with
    | leaf p => simp [realProject, treeMap2] at h
    | node p1 p2 =>
      simp only [realProject, treeMap2, Option.bind_eq_bind,
        Option.bind_eq_some, Option.pure_def, Option.some.injEq] at h
      obtain ⟨l, hl, r, hr, rfl⟩ := h
      exact ⟨ih1 p1 l hl, ih2 p2 r hr⟩

/-- Concrete update and parameter trees for the C7 witness: one complex
leaf and one real leaf whose raw update has a nonzero imaginary part. -/
def dpW7 : PyTree Leaf :=
  PyTree.node (PyTree.leaf ⟨[(1, 2)], true⟩) (PyTree.leaf ⟨[(3, 4)], false⟩)

def paramsW7 : PyTree Leaf :=
  PyTree.node (PyTree.leaf ⟨[(0, 0)], true⟩) (PyTree.leaf ⟨[(0, 0)], false⟩)

def uW7 : PyTree Leaf :=
  PyTree.node (PyTree.leaf ⟨[(1, 2)], true⟩) (PyTree.leaf ⟨[(3, 0)], false⟩)

/-- Witness for C7 at concrete trees. -/
theorem C7_witness : ProjSpec dpW7 paramsW7 uW7 :=
  C7_real_projection dpW7 paramsW7 uW7 rfl

lemma map_realpart_eq (L : List CC) (h : ∀ z ∈ L, z.2 = 0) :
    L.map (fun z => ((z.1, 0) : CC)) = L := by
  induction L with
  | nil => rfl
  | cons z r ih =>
    simp only [List.map_cons, List.cons.injEq]
    refine ⟨?_, ih (fun w hw => h w (List.mem_cons_of_mem z hw))⟩
    have hz := h z (List.mem_cons_self z r)
    exact Prod.ext rfl hz.symm

lemma realProject_valsEq (g : PyTree Leaf) :
    ∀ params, realImagZeroB g params = true →
      ∃ u, realProject g params = some u ∧ treeValsEqB u g = true := by
  induction g with
  | leaf gl =>
    intro params h
    cases params with
    | leaf p =>
      refine ⟨PyTree.leaf (projectLeaf gl p), rfl, ?_⟩
      by_cases hc : p.isComplex
      · simp [projectLeaf, hc, treeValsEqB]
      · simp only [realImagZeroB, hc, Bool.false_or, List.all_eq_true,
          decide_eq_true_eq] at h
        simp [projectLeaf, hc, treeValsEqB, map_realpart_eq gl.vals h]
    | node p1 p2 => simp [realImagZeroB] at h
  | node a b iha ihb =>
    intro params h
    cases params with
    | leaf p => simp [realImagZeroB] at h
    | node p1 p2 =>
      simp only [realImagZeroB, Bool.and_eq_true] at h
      obtain ⟨u1, hu1, hv1⟩ := iha p1 h.1
      obtain ⟨u2, hu2, hv2⟩ := ihb p2 h.2
      refine ⟨PyTree.node u1 u2, ?_, ?_⟩
      · simp [realProject, treeMap2] at hu1 hu2 ⊢
        rw [hu1, hu2]
        rfl
      · simp [treeValsEqB, hv1, hv2]

/-- Claim C6, amended: with the identity preconditioner the update tree
returned by a training step is element-wise (value-wise) equal to the
loss gradient tree `2 * conj(grad_neg - grad_pos)` whenever every
real-dtype parameter leaf's loss-gradient entries have zero imaginary
part; otherwise the final real-parameter projection, which runs after the
preconditioner, discards those imaginary parts, so the unconditional
equality of the original claim fails. -/
theorem C6_identity_preconditioner (params gn gp g : PyTree Leaf)
    (hg : compose_grads gn gp = some g)
    (hreal : realImagZeroB g params = true) :
    ∃ u, forward_and_backward_update identity_preconditioner params gn gp
        = some u ∧ treeValsEqB u g = true := by
  obtain ⟨u, hu, hveq⟩ := realProject_valsEq g params hreal
  refine ⟨u, ?_, hveq⟩
  simp [forward_and_backward_update, hg, identity_preconditioner, hu]

/-- Concrete trees for C6: a single real-dtype parameter leaf whose loss
gradient has a nonzero imaginary part. -/
def paramsC6 : PyTree Leaf := PyTree.leaf ⟨[(0, 0)], false⟩

def gradNegC6 : PyTree Leaf := PyTree.leaf ⟨[(0, 1)], true⟩

def gradPosC6 : PyTree Leaf := PyTree.leaf ⟨[(0, 0)], true⟩

/-- The loss gradient of the concrete C6 trees: `2 * conj((0,1) - (0,0))`
is `(0, -2)`. -/
def lossGradC6 : PyTree Leaf := PyTree.leaf ⟨[(0, -2)], true⟩

/-- The update the step returns there: the projection at the real
parameter leaf keeps only the real part, `0`. -/
def updateC6 : PyTree Leaf := PyTree.leaf ⟨[(0, 0)], false⟩

/-- Claim C6, counterexample: at a real-dtype parameter leaf with loss
gradient `(0, -2)` the training step returns `(0, 0)`, not the loss
gradient — the element-wise equality of the claim fails. -/
theorem C6_identity_counterexample :
    forward_and_backward_update identity_preconditioner paramsC6 gradNegC6
        gradPosC6 = some updateC6 ∧
    compose_grads gradNegC6 gradPosC6 = some lossGradC6 ∧
    treeValsEqB updateC6 lossGradC6 = false := by
  refine ⟨?_, ?_, ?_⟩ <;> decide

/-- Concrete trees for the C6 witness: a complex leaf and a real leaf
whose gradient is purely real. -/
def paramsW6 : PyTree Leaf :=
  PyTree.node (PyTree.leaf ⟨[(0, 0)], true⟩) (PyTree.leaf ⟨[(0, 0)], false⟩)

def gradNegW6 : PyTree Leaf :=
  PyTree.node (PyTree.leaf ⟨[(2, 1)], true⟩) (PyTree.leaf ⟨[(5, 0)], false⟩)

def gradPosW6 : PyTree Leaf :=
  PyTree.node (PyTree.leaf ⟨[(1, 3)], true⟩) (PyTree.leaf ⟨[(2, 0)], false⟩)

def lossGradW6 : PyTree Leaf :=
  PyTree.node (PyTree.leaf ⟨[(2, 4)], true⟩) (PyTree.leaf ⟨[(6, 0)], false⟩)

/-- Witness for the amended C6 at concrete trees. -/
theorem C6_witness :
    ∃ u, forward_and_backward_update identity_preconditioner paramsW6
        gradNegW6 gradPosW6 = some u ∧ treeValsEqB u lossGradW6 = true :=
  C6_identity_preconditioner paramsW6 gradNegW6 gradPosW6 lossGradW6
    (by decide) (by decide)

/-- The list of per-record connected-configuration counts. -/
def connSizes (recs : List (List ℤ × RotOp)) : List ℕ :=
  recs.map (fun r => (r.2.get_conn r.1).length)

/-- The total true length: the sum of every record's connected count. -/
def connTotal (recs : List (List ℤ × RotOp)) : ℕ :=
  (connSizes recs).sum

/-- The per-record coefficient segments. -/
def melSegs (recs : List (List ℤ × RotOp)) : List (List CC) :=
  recs.map (fun r => (r.2.get_conn r.1).map Prod.snd)

/-- The per-record configuration-row segments. -/
def rowSegs (recs : List (List ℤ × RotOp)) : List (List (List ℤ)) :=
  recs.map (fun r => (r.2.get_conn r.1).map Prod.fst)

/-- The start offsets the conversion loop writes: partial sums of the
segment lengths, shifted by the base write position. -/
def offsetsFrom (b : ℕ) : List ℕ → List ℕ
  | [] => []
  | l :: rest => b :: offsetsFrom (b + l) rest

lemma offsetsFrom_length (lens : List ℕ) : ∀ b,
    (offsetsFrom b lens).length = lens.length := by
  induction lens with
  | nil => intro b; rfl
  | cons l rest ih => intro b; simp [offsetsFrom, ih]

lemma set_append_replicate (pre : List ℕ) (post : ℕ) (v : ℕ)
    (h : 0 < post) :
    (pre ++ List.replicate post 0).set pre.length v =
      pre ++ v :: List.replicate (post - 1) 0 := by
  induction pre with
  | nil =>
    cases post with
    | zero => exact absurd h (lt_irrefl 0)
    | succ p => simp [List.replicate_succ]
  | cons a as ih => simpa using ih

lemma convertLoop_spec (recs : List (List ℤ × RotOp)) :
    ∀ (acc : ConvAcc) (pre : List ℕ) (post : ℕ),
      acc.secs = pre ++ List.replicate post 0 →
      recs.length ≤ post →
      (convertLoop recs pre.length acc).mels =
        acc.mels ++ (melSegs recs).flatten ∧
      (convertLoop recs pre.length acc).sigma_p =
        acc.sigma_p ++ (rowSegs recs).flatten ∧
      (convertLoop recs pre.length acc).last_i =
        acc.last_i + connTotal recs ∧
      (convertLoop recs pre.length acc).secs =
        pre ++ offsetsFrom acc.last_i (connSizes recs) ++
          List.replicate (post - recs.length) 0 := by
  induction recs with
  | nil =>
    intro acc pre post hsecs _
    simp [convertLoop, melSegs, rowSegs, connSizes, connTotal,
      offsetsFrom, hsecs]
  | cons rec rest ih =>
    intro acc pre post hsecs hle
    obtain ⟨sigma, U⟩ := rec
    have hpost : 0 < post := by
      simp only [List.length_cons] at hle; omega
    have hrest : rest.length ≤ post - 1 := by
      simp only [List.length_cons] at hle; omega
    simp only [convertLoop]
    have hset : acc.secs.set pre.length acc.last_i =
        (pre ++ [acc.last_i]) ++ List.replicate (post - 1) 0 := by
      rw [hsecs, set_append_replicate pre post acc.last_i hpost]
      simp
    have hplen : pre.length + 1 = (pre ++ [acc.last_i]).length := by simp
    obtain ⟨hm, hs, hl, hsec⟩ :=
      ih { sigma_p := acc.sigma_p ++ (U.get_conn sigma).map Prod.fst
           mels := acc.mels ++ (U.get_conn sigma).map Prod.snd
           secs := acc.secs.set pre.length acc.last_i
           last_i := acc.last_i + (U.get_conn sigma).length
           maxLen := max (U.get_conn sigma).length acc.maxLen
           lastNc := (U.get_conn sigma).length }
        (pre ++ [acc.last_i]) (post - 1) hset hrest
    rw [hplen]
    refine ⟨?_, ?_, ?_, ?_⟩
    · rw [hm]; simp [melSegs]
    · rw [hs]; simp [rowSegs]
    · rw [hl]
      simp only [connTotal, connSizes, List.map_cons, List.sum_cons]
      omega
    · rw [hsec]
      have hsub : post - 1 - rest.length = post - (rest.length + 1) := by
        omega
      simp [offsetsFrom, connSizes, hsub, List.append_assoc]

lemma take_append_replicate_pad (flat : List α) (z : α) (M c : ℕ) :
    (flat ++ List.replicate M z).take (flat.length + c) ++
      List.replicate
        ((flat ++ List.replicate M z).length - (flat.length + c)) z =
      flat ++ List.replicate M z := by
  rw [List.take_append, List.take_replicate, List.length_append,
    List.length_replicate, List.append_assoc]
  have h1 : flat.length + M - (flat.length + c) = M - c := by omega
  rw [h1]
  congr 1
  rw [← List.replicate_add]
  congr 1
  omega

lemma zeroFrom_append_replicate (flat : List CC) (M c : ℕ) :
    zeroFrom (flat ++ List.replicate M 0) (flat.length + c) =
      flat ++ List.replicate M 0 := by
  unfold zeroFrom
  exact take_append_replicate_pad flat 0 M c

lemma zeroRowsFrom_append_replicate (flat : List (List ℤ)) (M c n : ℕ) :
    zeroRowsFrom (flat ++ List.replicate M (List.replicate n 0))
        (flat.length + c) n =
      flat ++ List.replicate M (List.replicate n 0) := by
  unfold zeroRowsFrom
  exact take_append_replicate_pad flat (List.replicate n 0) M c

lemma getD_append_replicate_zero (flat : List CC) (M : ℕ) :
    ∀ j, flat.length ≤ j →
      (flat ++ List.replicate M (0 : CC)).getD j 0 = 0 := by
  intro j hj
  rw [List.getD_append_right _ _ _ _ hj, List.getD_eq_getElem?_getD,
    List.getElem?_replicate]
  split <;> rfl

lemma offsetsFrom_append_head (b e : ℕ) (lens : List ℕ) (h : b ≤ e) :
    ∀ y ∈ (offsetsFrom b lens ++ [e]).head?, b ≤ y := by
  cases lens with
  | nil =>
    intro y hy
    simp only [offsetsFrom, List.nil_append, List.head?_cons,
      Option.mem_def, Option.some.injEq] at hy
    omega
  | cons l rest =>
    intro y hy
    simp only [offsetsFrom, List.cons_append, List.head?_cons,
      Option.mem_def, Option.some.injEq] at hy
    omega

lemma chain'_offsetsFrom (lens : List ℕ) : ∀ b,
    List.Chain' (· ≤ ·) (offsetsFrom b lens ++ [b + lens.sum]) := by
  induction lens with
  | nil =>
    intro b
    simp only [offsetsFrom, List.nil_append]
    exact List.chain'_singleton _
  | cons l rest ih =>
    intro b
    simp only [offsetsFrom, List.cons_append, List.sum_cons]
    rw [List.chain'_cons']
    constructor
    · intro y hy
      have hadd : b + (l + rest.sum) = b + l + rest.sum := by omega
      rw [hadd] at hy
      have := offsetsFrom_append_head (b + l) (b + l + rest.sum) rest
        (by omega) y hy
      omega
    · have hadd : b + (l + rest.sum) = b + l + rest.sum := by omega
      rw [hadd]
      exact ih (b + l)

lemma getD_append_singleton_length (xs : List ℕ) (v : ℕ) :
    (xs ++ [v]).getD xs.length 0 = v := by
  rw [List.getD_append_right xs [v] 0 xs.length le_rfl]
  simp

/-- The conversion-loop result of `convert_data_core`, named for reuse in
proofs. -/
def convertLoopOf (sigma_s : List (List ℤ)) (Us : List RotOp) : ConvAcc :=
  convertLoop (sigma_s.zip Us) 0
    ⟨[], [], List.replicate (sigma_s.length + 1) 0, 0, 0,
      Us.head?.elim 0 RotOp.localSize⟩

lemma convert_data_core_eq (sigma_s : List (List ℤ)) (Us : List RotOp) :
    convert_data_core sigma_s Us =
      { sigma_p := zeroRowsFrom
          ((convertLoopOf sigma_s Us).sigma_p ++
            List.replicate (convertLoopOf sigma_s Us).maxLen
              (List.replicate (sigma_s.head?.elim 0 List.length) 0))
          ((convertLoopOf sigma_s Us).last_i +
            (convertLoopOf sigma_s Us).lastNc)
          (sigma_s.head?.elim 0 List.length)
        mels := zeroFrom
          ((convertLoopOf sigma_s Us).mels ++
            List.replicate (convertLoopOf sigma_s Us).maxLen 0)
          ((convertLoopOf sigma_s Us).last_i +
            (convertLoopOf sigma_s Us).lastNc)
        secs := (convertLoopOf sigma_s Us).secs.set sigma_s.length
          (convertLoopOf sigma_s Us).last_i
        max_len := (convertLoopOf sigma_s Us).maxLen } := rfl

/-- The components of `convert_data_core` on an equal-length dataset:
`secs` is the offsets list capped by the total, both flat buffers are the
concatenated segments followed by `MAX_LEN` zero-padding entries. -/
lemma convert_data_core_parts (sigma_s : List (List ℤ)) (Us : List RotOp)
    (hlen : sigma_s.length = Us.length) :
    (convert_data_core sigma_s Us).secs =
      offsetsFrom 0 (connSizes (sigma_s.zip Us)) ++
        [connTotal (sigma_s.zip Us)] ∧
    (convert_data_core sigma_s Us).mels =
      (melSegs (sigma_s.zip Us)).flatten ++
        List.replicate (convert_data_core sigma_s Us).max_len 0 ∧
    (convert_data_core sigma_s Us).sigma_p =
      (rowSegs (sigma_s.zip Us)).flatten ++
        List.replicate (convert_data_core sigma_s Us).max_len
          (List.replicate (sigma_s.head?.elim 0 List.length) 0) ∧
    (melSegs (sigma_s.zip Us)).flatten.length =
      connTotal (sigma_s.zip Us) ∧
    (rowSegs (sigma_s.zip Us)).flatten.length =
      connTotal (sigma_s.zip Us) := by
  have hzlen : (sigma_s.zip Us).length = sigma_s.length := by
    rw [List.length_zip, hlen, min_self]
  have hinit : (⟨[], [], List.replicate (sigma_s.length + 1) 0, 0, 0,
      Us.head?.elim 0 RotOp.localSize⟩ : ConvAcc).secs =
      [] ++ List.replicate (sigma_s.length + 1) 0 := by simp
  have hle : (sigma_s.zip Us).length ≤ sigma_s.length + 1 := by omega
  obtain ⟨hm, hs, hl, hsec⟩ := convertLoop_spec (sigma_s.zip Us)
    ⟨[], [], List.replicate (sigma_s.length + 1) 0, 0, 0,
      Us.head?.elim 0 RotOp.localSize⟩ [] (sigma_s.length + 1) hinit hle
  simp only [List.length_nil] at hm hs hl hsec
  have hmloop : (convertLoopOf sigma_s Us).mels =
      (melSegs (sigma_s.zip Us)).flatten := by
    rw [convertLoopOf, hm]; rfl
  have hsloop : (convertLoopOf sigma_s Us).sigma_p =
      (rowSegs (sigma_s.zip Us)).flatten := by
    rw [convertLoopOf, hs]; rfl
  have hlloop : (convertLoopOf sigma_s Us).last_i =
      connTotal (sigma_s.zip Us) := by
    rw [convertLoopOf, hl]
    omega
  have hmlen : (melSegs (sigma_s.zip Us)).flatten.length =
      connTotal (sigma_s.zip Us) := by
    simp [melSegs, connTotal, connSizes, List.length_flatten,
      Function.comp_def, List.map_map, List.length_map]
  have hslen : (rowSegs (sigma_s.zip Us)).flatten.length =
      connTotal (sigma_s.zip Us) := by
    simp [rowSegs, connTotal, connSizes, List.length_flatten,
      Function.comp_def, List.map_map, List.length_map]
  have hNb : sigma_s.length + 1 - (sigma_s.zip Us).length = 1 := by omega
  have hsec2 : (convertLoopOf sigma_s Us).secs =
      offsetsFrom 0 (connSizes (sigma_s.zip Us)) ++ [0] := by
    rw [convertLoopOf, hsec, hNb]
    simp
  have hofflen : (offsetsFrom 0 (connSizes (sigma_s.zip Us))).length =
      sigma_s.length := by
    rw [offsetsFrom_length]
    simp [connSizes, hzlen]
  rw [convert_data_core_eq sigma_s Us]
  refine ⟨?_, ?_, ?_, hmlen, hslen⟩
  · simp only [hsec2, hlloop, ← hofflen]
    have hset := set_append_replicate
      (offsetsFrom 0 (connSizes (sigma_s.zip Us))) 1
      (connTotal (sigma_s.zip Us)) (by omega)
    simp only [List.replicate_one] at hset
    rw [hset]
    simp
  · simp only [hmloop, hlloop, ← hmlen]
    exact zeroFrom_append_replicate _ _ _
  · simp only [hsloop, hlloop, ← hslen]
    exact zeroRowsFrom_append_replicate _ _ _ _

lemma offsetsFrom_zero_getD (lens : List ℕ) :
    (offsetsFrom 0 lens ++ [lens.sum]).getD 0 0 = 0 := by
  cases lens with
  | nil => simp [offsetsFrom]
  | cons l r => simp [offsetsFrom]

/-- Claim C1: for every dataset accepted by the conversion (a basis
collection passing `_check_bases_type`, with as many samples as bases —
the mismatched case is the separate claim C4), the returned `secs`
satisfies `secs[0] = 0`, `secs` is non-decreasing, `secs[-1]` is the sum
of every record's connected-configuration count, both flat arrays extend
exactly `MAX_LEN` entries past `secs[-1]`, and every coefficient entry at
index `secs[-1]` or beyond is zero. -/
theorem C1_segment_invariant
    (sem : List (ℕ × LocalGate) → RotOp) (sigma_s : List (List ℤ))
    (UsIn : BasesInput) (Us : List RotOp) (cd : ConvertedData)
    (hUs : check_bases_type sem UsIn = Except.ok Us)
    (hcd : convert_data sem sigma_s UsIn = Except.ok cd)
    (hlen : sigma_s.length = Us.length) :
    cd.secs.length = sigma_s.length + 1 ∧
    cd.secs.getD 0 0 = 0 ∧
    List.Chain' (· ≤ ·) cd.secs ∧
    cd.secs.getD sigma_s.length 0 = connTotal (sigma_s.zip Us) ∧
    cd.mels.length = connTotal (sigma_s.zip Us) + cd.max_len ∧
    cd.sigma_p.length = connTotal (sigma_s.zip Us) + cd.max_len ∧
    ∀ j, connTotal (sigma_s.zip Us) ≤ j → cd.mels.getD j 0 = 0 := by
  have hcd' : cd = convert_data_core sigma_s Us := by
    rw [convert_data, hUs] at hcd
    simp only [Except.map, Except.ok.injEq] at hcd
    exact hcd.symm
  subst hcd'
  obtain ⟨hsec, hmel, hsp, hmlen, hslen⟩ :=
    convert_data_core_parts sigma_s Us hlen
  have hofflen : (offsetsFrom 0 (connSizes (sigma_s.zip Us))).length =
      sigma_s.length := by
    rw [offsetsFrom_length]
    simp [connSizes, List.length_zip, hlen]
  refine ⟨?_, ?_, ?_, ?_, ?_, ?_, ?_⟩
  · rw [hsec]
    simp [hofflen]
  · rw [hsec]
    exact offsetsFrom_zero_getD (connSizes (sigma_s.zip Us))
  · rw [hsec]
    have := chain'_offsetsFrom (connSizes (sigma_s.zip Us)) 0
    simpa [connTotal] using this
  · rw [hsec, ← hofflen]
    exact getD_append_singleton_length _ _
  · rw [hmel]
    simp [hmlen]
  · rw [hsp]
    simp [hslen]
  · intro j hj
    rw [hmel]
    exact getD_append_replicate_zero _ _ j (by omega)

/-- Concrete data for the C1 witness: two samples, two (prebuilt)
operators. -/
def sigmaW1 : List (List ℤ) := [[1], [-1]]

def UsW1 : List RotOp := [testOpA, testOpA]

def cdW1 : ConvertedData := convert_data_core sigmaW1 UsW1

/-- Witness for C1 at a concrete dataset. -/
theorem C1_witness :
    cdW1.secs.length = sigmaW1.length + 1 ∧
    cdW1.secs.getD 0 0 = 0 ∧
    List.Chain' (· ≤ ·) cdW1.secs ∧
    cdW1.secs.getD sigmaW1.length 0 = connTotal (sigmaW1.zip UsW1) ∧
    cdW1.mels.length = connTotal (sigmaW1.zip UsW1) + cdW1.max_len ∧
    cdW1.sigma_p.length = connTotal (sigmaW1.zip UsW1) + cdW1.max_len ∧
    ∀ j, connTotal (sigmaW1.zip UsW1) ≤ j → cdW1.mels.getD j 0 = 0 :=
  C1_segment_invariant (fun _ => testOpA) sigmaW1 (BasesInput.ops UsW1)
    UsW1 cdW1 rfl rfl rfl

/-- The dataset segment lengths selected by the sampled indices. -/
def segLens (secs : List ℕ) (idxs : List ℕ) : List ℕ :=
  idxs.map (fun i => secs.getD (i + 1) 0 - secs.getD i 0)

/-- The dataset coefficient segments selected by the sampled indices. -/
def melSegsOf (mels : List CC) (secs : List ℕ) (idxs : List ℕ) :
    List (List CC) :=
  idxs.map (fun i => sliceList mels (secs.getD i 0) (secs.getD (i + 1) 0))

/-- The dataset configuration-row segments selected by the sampled
indices. -/
def rowSegsOf (sigma_p : List (List ℤ)) (secs : List ℕ) (idxs : List ℕ) :
    List (List (List ℤ)) :=
  idxs.map
    (fun i => sliceList sigma_p (secs.getD i 0) (secs.getD (i + 1) 0))

/-- The cumulative end offsets the copy loop writes into `_secs`. -/
def cumFrom (b : ℕ) : List ℕ → List ℕ
  | [] => []
  | l :: rest => (b + l) :: cumFrom (b + l) rest

/-- The shape of a converted dataset that `_compose_sampled_data`
assumes: equally long flat arrays, non-decreasing offsets with segments
bounded by `MAX_LEN`, and a final offset inside the flat arrays (all of
which hold for the output of `_convert_data`, claim C1). -/
def datasetOkB (melsLen spLen MAX_LEN : ℕ) (secs : List ℕ) : Bool :=
  (spLen == melsLen) &&
  ((List.range (secs.length - 1)).all (fun k =>
    decide (secs.getD k 0 ≤ secs.getD (k + 1) 0) &&
    decide (secs.getD (k + 1) 0 - secs.getD k 0 ≤ MAX_LEN))) &&
  decide (secs.getD (secs.length - 1) 0 ≤ melsLen)

/-- Every sampled index addresses a record of the dataset. -/
def sampledOkB (secs : List ℕ) (idxs : List ℕ) : Bool :=
  idxs.all (fun i => decide (i + 1 < secs.length))

/-- Ascending (non-strictly) sorted index list, as `np.sort` returns. -/
def sortedB : List ℕ → Bool
  | [] => true
  | [_] => true
  | a :: b :: r => decide (a ≤ b) && sortedB (b :: r)

lemma datasetOkB_spLen {melsLen spLen MAX_LEN : ℕ} {secs : List ℕ}
    (h : datasetOkB melsLen spLen MAX_LEN secs = true) :
    spLen = melsLen := by
  simp only [datasetOkB, Bool.and_eq_true, beq_iff_eq] at h
  exact h.1.1

lemma datasetOkB_mono {melsLen spLen MAX_LEN : ℕ} {secs : List ℕ}
    (h : datasetOkB melsLen spLen MAX_LEN secs = true) :
    ∀ k, k + 1 < secs.length → secs.getD k 0 ≤ secs.getD (k + 1) 0 := by
  simp only [datasetOkB, Bool.and_eq_true, List.all_eq_true,
    List.mem_range, decide_eq_true_eq] at h
  intro k hk
  exact (h.1.2 k (by omega)).1

lemma datasetOkB_seg {melsLen spLen MAX_LEN : ℕ} {secs : List ℕ}
    (h : datasetOkB melsLen spLen MAX_LEN secs = true) :
    ∀ k, k + 1 < secs.length →
      secs.getD (k + 1) 0 - secs.getD k 0 ≤ MAX_LEN := by
  simp only [datasetOkB, Bool.and_eq_true, List.all_eq_true,
    List.mem_range, decide_eq_true_eq] at h
  intro k hk
  exact (h.1.2 k (by omega)).2

lemma datasetOkB_last {melsLen spLen MAX_LEN : ℕ} {secs : List ℕ}
    (h : datasetOkB melsLen spLen MAX_LEN secs = true) :
    secs.getD (secs.length - 1) 0 ≤ melsLen := by
  simp only [datasetOkB, Bool.and_eq_true, decide_eq_true_eq] at h
  exact h.2

lemma sampledOkB_mem {secs : List ℕ} {idxs : List ℕ}
    (h : sampledOkB secs idxs = true) :
    ∀ i ∈ idxs, i + 1 < secs.length := by
  simp only [sampledOkB, List.all_eq_true, decide_eq_true_eq] at h
  exact h

lemma getD_mono_of_step (secs : List ℕ)
    (hstep : ∀ k, k + 1 < secs.length →
      secs.getD k 0 ≤ secs.getD (k + 1) 0) :
    ∀ a b, a ≤ b → b < secs.length → secs.getD a 0 ≤ secs.getD b 0 := by
  intro a b
  induction b with
  | zero =>
    intro hab _
    have : a = 0 := by omega
    subst this
    exact le_refl _
  | succ n ih =>
    intro hab hb
    rcases Nat.eq_or_lt_of_le hab with heq | hlt
    · subst heq; exact le_refl _
    · exact le_trans (ih (by omega) (by omega)) (hstep n hb)

lemma sliceList_length (l : List α) (a b : ℕ) (hb : b ≤ l.length) :
    (sliceList l a b).length = b - a := by
  simp only [sliceList, List.length_take, List.length_drop]
  omega

lemma setSlice_pad (mpre : List α) (z : α) (m : ℕ) (s : List α)
    (h : s.length ≤ m) :
    setSlice (mpre ++ List.replicate m z) mpre.length s =
      (mpre ++ s) ++ List.replicate (m - s.length) z := by
  unfold setSlice
  rw [List.take_left, List.drop_append, List.drop_replicate,
    List.append_assoc]

lemma sliceList_take (l : List α) (p a b : ℕ) (hb : b ≤ p) :
    sliceList (l.take p) a b = sliceList l a b := by
  simp only [sliceList, List.drop_take, List.take_take]
  congr 1
  omega

lemma sliceList_append_left (x y : List α) (a b : ℕ)
    (hb : b ≤ x.length) :
    sliceList (x ++ y) a b = sliceList x a b := by
  by_cases ha : a ≤ x.length
  · simp only [sliceList, List.drop_append_of_le_length ha]
    exact List.take_append_of_le_length (by simp; omega)
  · have h0 : b - a = 0 := by omega
    simp [sliceList, h0]

lemma sliceList_append_shift (x y : List α) (a b : ℕ) :
    sliceList (x ++ y) (x.length + a) (x.length + b) =
      sliceList y a b := by
  simp only [sliceList, List.drop_append]
  congr 1
  omega

lemma flatten_sliceList (segs : List (List α)) : ∀ n, n < segs.length →
    sliceList segs.flatten (((segs.map List.length).take n).sum)
      (((segs.map List.length).take (n + 1)).sum) = segs.getD n [] := by
  induction segs with
  | nil => intro n h; simp at h
  | cons s rest ih =>
    intro n hn
    cases n with
    | zero =>
      simp only [List.map_cons, List.take_zero, List.sum_nil,
        List.take_succ_cons, List.take_zero, List.sum_cons,
        List.sum_nil, List.flatten_cons, List.getD_cons_zero]
      simp only [sliceList, List.drop_zero, Nat.sub_zero, Nat.add_zero]
      exact List.take_left s rest.flatten
    | succ m =>
      simp only [List.map_cons, List.take_succ_cons, List.sum_cons,
        List.flatten_cons, List.getD_cons_succ]
      rw [sliceList_append_shift s rest.flatten]
      exact ih m (by simpa using hn)

lemma getD_map_lt (f : α → β) (l : List α) (n : ℕ) (d : β) (d' : α)
    (h : n < l.length) :
    (l.map f).getD n d = f (l.getD n d') := by
  rw [List.getD_eq_getElem?_getD, List.getD_eq_getElem?_getD,
    List.getElem?_map, List.getElem?_eq_getElem h]
  simp [List.getD_eq_getElem?_getD, List.getElem?_eq_getElem h]

lemma sum_take_le (lens : List ℕ) (k : ℕ) :
    (lens.take k).sum ≤ lens.sum := by
  conv_rhs => rw [← List.take_append_drop k lens]
  rw [List.sum_append]
  omega

lemma sum_le_length_mul (lens : List ℕ) (M : ℕ)
    (h : ∀ l ∈ lens, l ≤ M) : lens.sum ≤ lens.length * M := by
  induction lens with
  | nil => simp
  | cons l rest ih =>
    simp only [List.sum_cons, List.length_cons]
    have h1 := h l (List.mem_cons_self l rest)
    have h2 := ih (fun x hx => h x (List.mem_cons_of_mem l hx))
    have : (rest.length + 1) * M = rest.length * M + M := by ring
    omega

lemma le_mul_ceil (a pf : ℕ) (h : 0 < pf) :
    a ≤ pf * ((a + pf - 1) / pf) := by
  have hdm := Nat.div_add_mod (a + pf - 1) pf
  have hmod := Nat.mod_lt (a + pf - 1) h
  omega

lemma cons_cumFrom_getD (lens : List ℕ) : ∀ b n, n ≤ lens.length →
    (b :: cumFrom b lens).getD n 0 = b + (lens.take n).sum := by
  induction lens with
  | nil =>
    intro b n hn
    have : n = 0 := by simpa using hn
    subst this
    simp
  | cons l rest ih =>
    intro b n hn
    cases n with
    | zero => simp
    | succ m =>
      simp only [cumFrom, List.getD_cons_succ, List.take_succ_cons,
        List.sum_cons]
      rw [ih (b + l) m (by simpa using hn)]
      omega

lemma composeLoop_spec (sigma_p : List (List ℤ)) (mels : List CC)
    (secs : List ℕ)
    (hsplen : sigma_p.length = mels.length)
    (hmono : ∀ k, k + 1 < secs.length →
      secs.getD k 0 ≤ secs.getD (k + 1) 0)
    (hlast : secs.getD (secs.length - 1) 0 ≤ mels.length)
    (B NS : ℕ) (zrow : List ℤ) :
    ∀ (idxs : List ℕ) (n0 : ℕ) (acc : ComposeAcc)
      (mpre : List CC) (spre : List (List ℤ)) (scpre : List ℕ),
      (∀ i ∈ idxs, i + 1 < secs.length) →
      acc.ml = mpre ++ List.replicate (B - mpre.length) 0 →
      acc.sp = spre ++ List.replicate (B - spre.length) zrow →
      acc.last = mpre.length →
      spre.length = mpre.length →
      mpre.length + (segLens secs idxs).sum ≤ B →
      acc.sc = scpre ++ List.replicate (NS + 1 - scpre.length) 0 →
      scpre.length = n0 + 1 →
      n0 + idxs.length ≤ NS →
      (composeLoop sigma_p mels secs idxs n0 acc).ml =
        (mpre ++ (melSegsOf mels secs idxs).flatten) ++
          List.replicate (B - mpre.length - (segLens secs idxs).sum) 0 ∧
      (composeLoop sigma_p mels secs idxs n0 acc).sp =
        (spre ++ (rowSegsOf sigma_p secs idxs).flatten) ++
          List.replicate (B - mpre.length - (segLens secs idxs).sum)
            zrow ∧
      (composeLoop sigma_p mels secs idxs n0 acc).last =
        mpre.length + (segLens secs idxs).sum ∧
      (composeLoop sigma_p mels secs idxs n0 acc).sc =
        scpre ++ cumFrom mpre.length (segLens secs idxs) ++
          List.replicate (NS - n0 - idxs.length) 0 := by
  intro idxs
  induction idxs with
  | nil =>
    intro n0 acc mpre spre scpre hmem hml hsp hlastacc hpre hsum hsc
      hscpre hns
    simp only [List.length_nil, Nat.add_zero] at hns
    simp only [composeLoop, segLens, melSegsOf, rowSegsOf, List.map_nil,
      List.flatten_nil, List.sum_nil, cumFrom, List.append_nil,
      List.length_nil, Nat.sub_zero, Nat.add_zero]
    refine ⟨by rw [hml], by rw [hsp, hpre], hlastacc, ?_⟩
    rw [hsc, hscpre]
    have hcnt : NS + 1 - (n0 + 1) = NS - n0 := by omega
    rw [hcnt]
  | cons i rest ih =>
    intro n0 acc mpre spre scpre hmem hml hsp hlastacc hpre hsum hsc
      hscpre hns
    simp only [List.length_cons] at hns
    have hi : i + 1 < secs.length := hmem i (List.mem_cons_self i rest)
    have hstop_le : secs.getD (i + 1) 0 ≤ mels.length :=
      le_trans (getD_mono_of_step secs hmono (i + 1) (secs.length - 1)
        (by omega) (by omega)) hlast
    have hmellen :
        (sliceList mels (secs.getD i 0) (secs.getD (i + 1) 0)).length =
          secs.getD (i + 1) 0 - secs.getD i 0 :=
      sliceList_length _ _ _ hstop_le
    have hrowlen :
        (sliceList sigma_p (secs.getD i 0)
          (secs.getD (i + 1) 0)).length =
          secs.getD (i + 1) 0 - secs.getD i 0 :=
      sliceList_length _ _ _ (by rw [hsplen]; exact hstop_le)
    have hsumc : mpre.length + ((secs.getD (i + 1) 0 - secs.getD i 0) +
        (segLens secs rest).sum) ≤ B := by
      simpa [segLens, List.sum_cons] using hsum
    have hlenle : (sliceList mels (secs.getD i 0)
        (secs.getD (i + 1) 0)).length ≤ B - mpre.length := by
      rw [hmellen]; omega
    have hrowle : (sliceList sigma_p (secs.getD i 0)
        (secs.getD (i + 1) 0)).length ≤ B - spre.length := by
      rw [hrowlen, hpre]; omega
    have hcnt1 : B - mpre.length -
        (sliceList mels (secs.getD i 0) (secs.getD (i + 1) 0)).length =
        B - (mpre ++ sliceList mels (secs.getD i 0)
          (secs.getD (i + 1) 0)).length := by
      rw [List.length_append]; omega
    have hml' : setSlice acc.ml acc.last
        (sliceList mels (secs.getD i 0) (secs.getD (i + 1) 0)) =
        (mpre ++ sliceList mels (secs.getD i 0) (secs.getD (i + 1) 0)) ++
          List.replicate
            (B - (mpre ++ sliceList mels (secs.getD i 0)
              (secs.getD (i + 1) 0)).length) 0 := by
      rw [hml, hlastacc, setSlice_pad mpre 0 (B - mpre.length) _ hlenle,
        hcnt1]
    have hcnt2 : B - spre.length -
        (sliceList sigma_p (secs.getD i 0)
          (secs.getD (i + 1) 0)).length =
        B - (spre ++ sliceList sigma_p (secs.getD i 0)
          (secs.getD (i + 1) 0)).length := by
      rw [List.length_append]; omega
    have hsp' : setSlice acc.sp acc.last
        (sliceList sigma_p (secs.getD i 0) (secs.getD (i + 1) 0)) =
        (spre ++ sliceList sigma_p (secs.getD i 0)
          (secs.getD (i + 1) 0)) ++
          List.replicate
            (B - (spre ++ sliceList sigma_p (secs.getD i 0)
              (secs.getD (i + 1) 0)).length) zrow := by
      rw [hsp, hlastacc, ← hpre,
        setSlice_pad spre zrow (B - spre.length) _ hrowle, hcnt2]
    have hscpos : 0 < NS + 1 - scpre.length := by omega
    have hcnt3 : NS + 1 - scpre.length - 1 =
        NS + 1 - (scpre ++ [mpre.length +
          (secs.getD (i + 1) 0 - secs.getD i 0)]).length := by
      rw [List.length_append, List.length_singleton]; omega
    have hsc' : acc.sc.set (n0 + 1)
        (acc.last + (secs.getD (i + 1) 0 - secs.getD i 0)) =
        (scpre ++ [mpre.length + (secs.getD (i + 1) 0 - secs.getD i 0)])
          ++ List.replicate
            (NS + 1 - (scpre ++ [mpre.length +
              (secs.getD (i + 1) 0 - secs.getD i 0)]).length) 0 := by
      rw [hsc, hlastacc, ← hscpre,
        set_append_replicate scpre (NS + 1 - scpre.length) _ hscpos,
        hcnt3]
      simp
    obtain ⟨h1, h2, h3, h4⟩ := ih (n0 + 1)
      { sp := setSlice acc.sp acc.last
          (sliceList sigma_p (secs.getD i 0) (secs.getD (i + 1) 0))
        ml := setSlice acc.ml acc.last
          (sliceList mels (secs.getD i 0) (secs.getD (i + 1) 0))
        sc := acc.sc.set (n0 + 1)
          (acc.last + (secs.getD (i + 1) 0 - secs.getD i 0))
        last := acc.last + (secs.getD (i + 1) 0 - secs.getD i 0)
        maxlen := max acc.maxlen
          (secs.getD (i + 1) 0 - secs.getD i 0) }
      (mpre ++ sliceList mels (secs.getD i 0) (secs.getD (i + 1) 0))
      (spre ++ sliceList sigma_p (secs.getD i 0) (secs.getD (i + 1) 0))
      (scpre ++ [mpre.length + (secs.getD (i + 1) 0 - secs.getD i 0)])
      (fun j hj => hmem j (List.mem_cons_of_mem i hj))
      hml' hsp'
      (by rw [hlastacc, List.length_append, hmellen])
      (by rw [List.length_append, List.length_append, hmellen, hrowlen,
        hpre])
      (by rw [List.length_append, hmellen]; omega)
      hsc'
      (by simp [hscpre])
      (by omega)
    refine ⟨?_, ?_, ?_, ?_⟩
    · show (composeLoop sigma_p mels secs rest (n0 + 1) _).ml = _
      rw [h1]
      have hcnt : B - (mpre ++ sliceList mels (secs.getD i 0)
          (secs.getD (i + 1) 0)).length - (segLens secs rest).sum =
          B - mpre.length - (segLens secs (i :: rest)).sum := by
        rw [List.length_append, hmellen]
        simp only [segLens, List.map_cons, List.sum_cons]
        omega
      rw [hcnt]
      simp only [melSegsOf, List.map_cons, List.flatten_cons,
        List.append_assoc]
    · show (composeLoop sigma_p mels secs rest (n0 + 1) _).sp = _
      rw [h2]
      have hcnt : B - (mpre ++ sliceList mels (secs.getD i 0)
          (secs.getD (i + 1) 0)).length - (segLens secs rest).sum =
          B - mpre.length - (segLens secs (i :: rest)).sum := by
        rw [List.length_append, hmellen]
        simp only [segLens, List.map_cons, List.sum_cons]
        omega
      rw [hcnt]
      simp only [rowSegsOf, List.map_cons, List.flatten_cons,
        List.append_assoc]
    · show (composeLoop sigma_p mels secs rest (n0 + 1) _).last = _
      rw [h3]
      simp only [segLens, List.sum_cons, List.length_append, hmellen,
        List.map_cons]
      omega
    · show (composeLoop sigma_p mels secs rest (n0 + 1) _).sc = _
      rw [h4]
      have hcnt : NS - (n0 + 1) - rest.length =
          NS - n0 - (i :: rest).length := by
        simp only [List.length_cons]
        omega
      rw [hcnt]
      simp only [segLens, List.map_cons, cumFrom, List.length_append,
        hmellen, List.append_assoc, List.singleton_append]

/-- The copy-loop result of `_compose_sampled_data`, named for reuse. -/
def composeLoopOf (sigma_p : List (List ℤ)) (mels : List CC)
    (secs : List ℕ) (MAX_LEN : ℕ) (idxs : List ℕ) : ComposeAcc :=
  composeLoop sigma_p mels secs idxs 0
    ⟨List.replicate (idxs.length * MAX_LEN)
       (List.replicate (sigma_p.head?.elim 0 List.length) 0),
     List.replicate (idxs.length * MAX_LEN) 0,
     List.replicate (idxs.length + 1) 0, 0, 0⟩

/-- `padded_size`: the smallest multiple of
`padding_factor = max(MAX_LEN, min_padding_factor)` at or above the
copied length. -/
def paddedSizeOf (MAX_LEN mpf last : ℕ) : ℕ :=
  (max MAX_LEN mpf) * ((last + (max MAX_LEN mpf) - 1) / (max MAX_LEN mpf))

lemma compose_sampled_data_eq (sigma_p : List (List ℤ)) (mels : List CC)
    (secs : List ℕ) (MAX_LEN : ℕ) (idxs : List ℕ) (mpf : ℕ) :
    compose_sampled_data sigma_p mels secs MAX_LEN idxs mpf =
      { sigma_p := (composeLoopOf sigma_p mels secs MAX_LEN idxs).sp.take
          (paddedSizeOf MAX_LEN mpf
            (composeLoopOf sigma_p mels secs MAX_LEN idxs).last)
        mels := (composeLoopOf sigma_p mels secs MAX_LEN idxs).ml.take
          (paddedSizeOf MAX_LEN mpf
            (composeLoopOf sigma_p mels secs MAX_LEN idxs).last)
        secs := (composeLoopOf sigma_p mels secs MAX_LEN idxs).sc
        maxlen := (composeLoopOf sigma_p mels secs MAX_LEN
          idxs).maxlen } := rfl

lemma datasetOkB_getD_le {melsLen spLen MAX_LEN : ℕ} {secs : List ℕ}
    (h : datasetOkB melsLen spLen MAX_LEN secs = true) :
    ∀ k, k < secs.length → secs.getD k 0 ≤ melsLen := by
  intro k hk
  exact le_trans
    (getD_mono_of_step secs (datasetOkB_mono h) k (secs.length - 1)
      (by omega) (by omega))
    (datasetOkB_last h)

lemma melSegsOf_map_length {MAX_LEN : ℕ} {sigma_p : List (List ℤ)}
    {mels : List CC} {secs : List ℕ} {idxs : List ℕ}
    (hok : datasetOkB mels.length sigma_p.length MAX_LEN secs = true)
    (hidx : sampledOkB secs idxs = true) :
    (melSegsOf mels secs idxs).map List.length = segLens secs idxs := by
  simp only [melSegsOf, segLens, List.map_map]
  apply List.map_congr_left
  intro i hi
  exact sliceList_length _ _ _
    (datasetOkB_getD_le hok (i + 1) (sampledOkB_mem hidx i hi))

lemma rowSegsOf_map_length {MAX_LEN : ℕ} {sigma_p : List (List ℤ)}
    {mels : List CC} {secs : List ℕ} {idxs : List ℕ}
    (hok : datasetOkB mels.length sigma_p.length MAX_LEN secs = true)
    (hidx : sampledOkB secs idxs = true) :
    (rowSegsOf sigma_p secs idxs).map List.length =
      segLens secs idxs := by
  simp only [rowSegsOf, segLens, List.map_map]
  apply List.map_congr_left
  intro i hi
  refine sliceList_length _ _ _ ?_
  rw [datasetOkB_spLen hok]
  exact datasetOkB_getD_le hok (i + 1) (sampledOkB_mem hidx i hi)

lemma segLens_le (MAX_LEN : ℕ) {melsLen spLen : ℕ} {secs : List ℕ}
    {idxs : List ℕ}
    (hok : datasetOkB melsLen spLen MAX_LEN secs = true)
    (hidx : sampledOkB secs idxs = true) :
    (segLens secs idxs).sum ≤ idxs.length * MAX_LEN := by
  have h := sum_le_length_mul (segLens secs idxs) MAX_LEN ?_
  · simpa [segLens] using h
  · intro l hl
    simp only [segLens, List.mem_map] at hl
    obtain ⟨i, hi, rfl⟩ := hl
    exact datasetOkB_seg hok i (sampledOkB_mem hidx i hi)

lemma compose_sampled_data_parts (sigma_p : List (List ℤ))
    (mels : List CC) (secs : List ℕ) (MAX_LEN : ℕ) (idxs : List ℕ)
    (mpf : ℕ)
    (hok : datasetOkB mels.length sigma_p.length MAX_LEN secs = true)
    (hidx : sampledOkB secs idxs = true) :
    (compose_sampled_data sigma_p mels secs MAX_LEN idxs mpf).mels =
      ((melSegsOf mels secs idxs).flatten ++
        List.replicate
          (idxs.length * MAX_LEN - (segLens secs idxs).sum) 0).take
        (paddedSizeOf MAX_LEN mpf (segLens secs idxs).sum) ∧
    (compose_sampled_data sigma_p mels secs MAX_LEN idxs mpf).sigma_p =
      ((rowSegsOf sigma_p secs idxs).flatten ++
        List.replicate
          (idxs.length * MAX_LEN - (segLens secs idxs).sum)
          (List.replicate (sigma_p.head?.elim 0 List.length) 0)).take
        (paddedSizeOf MAX_LEN mpf (segLens secs idxs).sum) ∧
    (compose_sampled_data sigma_p mels secs MAX_LEN idxs mpf).secs =
      0 :: cumFrom 0 (segLens secs idxs) ∧
    (melSegsOf mels secs idxs).flatten.length =
      (segLens secs idxs).sum ∧
    (rowSegsOf sigma_p secs idxs).flatten.length =
      (segLens secs idxs).sum ∧
    (segLens secs idxs).sum ≤ idxs.length * MAX_LEN := by
  have hmlen : (melSegsOf mels secs idxs).flatten.length =
      (segLens secs idxs).sum := by
    rw [List.length_flatten, melSegsOf_map_length hok hidx]
  have hrlen : (rowSegsOf sigma_p secs idxs).flatten.length =
      (segLens secs idxs).sum := by
    rw [List.length_flatten, rowSegsOf_map_length hok hidx]
  have hsumB := segLens_le MAX_LEN hok hidx
  obtain ⟨h1, h2, h3, h4⟩ := composeLoop_spec sigma_p mels secs
    (datasetOkB_spLen hok) (datasetOkB_mono hok) (datasetOkB_last hok)
    (idxs.length * MAX_LEN) idxs.length
    (List.replicate (sigma_p.head?.elim 0 List.length) 0)
    idxs 0
    ⟨List.replicate (idxs.length * MAX_LEN)
       (List.replicate (sigma_p.head?.elim 0 List.length) 0),
     List.replicate (idxs.length * MAX_LEN) 0,
     List.replicate (idxs.length + 1) 0, 0, 0⟩
    [] [] [0]
    (sampledOkB_mem hidx)
    (by simp)
    (by simp)
    (by simp)
    (by simp)
    (by simpa using hsumB)
    (by simp [List.replicate_succ])
    (by simp)
    (by simp)
  simp only [List.length_nil, Nat.zero_sub, Nat.sub_zero, Nat.zero_add,
    List.nil_append] at h1 h2 h3 h4
  refine ⟨?_, ?_, ?_, hmlen, hrlen, hsumB⟩
  · rw [compose_sampled_data_eq]
    show (composeLoopOf sigma_p mels secs MAX_LEN idxs).ml.take _ = _
    rw [composeLoopOf, h1, h3]
  · rw [compose_sampled_data_eq]
    show (composeLoopOf sigma_p mels secs MAX_LEN idxs).sp.take _ = _
    rw [composeLoopOf, h2, h3]
  · rw [compose_sampled_data_eq]
    show (composeLoopOf sigma_p mels secs MAX_LEN idxs).sc = _
    rw [composeLoopOf, h4]
    simp

/-- A one-record converted dataset (two connected configurations,
`MAX_LEN = 2`), for the C2 counterexample and the C2/C3 witnesses. -/
def cdC2 : ConvertedData := convert_data_core [[1]] [testOpA]

/-- Claim C2, counterexample: on the dataset converted from one record
with two connected configurations, composing the batch for the sampled
indices `[0]` yields flat buffers of length 2 — `padded_size` is 128, but
the numpy slice `[:padded_size]` clamps at the allocated buffer length
`N_samples * MAX_LEN = 2` — so the flat-array length is not a multiple of
the padding granularity 128. -/
theorem C2_padding_counterexample :
    ¬ (128 ∣ (compose_sampled_data cdC2.sigma_p cdC2.mels cdC2.secs
        cdC2.max_len [0] 128).mels.length) := by
  intro hdvd
  have h2 : (compose_sampled_data cdC2.sigma_p cdC2.mels cdC2.secs
      cdC2.max_len [0] 128).mels.length = 2 := by decide
  rw [h2] at hdvd
  omega

/-- Claim C2, amended: for every converted dataset and sampled index
array, the composed batch's flat buffers have length
`min(padded_size, N_samples * MAX_LEN)` where `padded_size` is the least
multiple of `max(MAX_LEN, 128)` at or above the true total copied length:
the length is always at or above the true total copied length (that part
of the claim holds), but it is a multiple of the padding granularity 128
only when neither the buffer clamp (`[:padded_size]` on a shorter buffer)
nor a `MAX_LEN` above 128 intervenes. -/
theorem C2_padding_amended (sigma_p : List (List ℤ)) (mels : List CC)
    (secs : List ℕ) (MAX_LEN : ℕ) (idxs : List ℕ)
    (hok : datasetOkB mels.length sigma_p.length MAX_LEN secs = true)
    (hidx : sampledOkB secs idxs = true) :
    (compose_sampled_data sigma_p mels secs MAX_LEN idxs
        128).mels.length =
      min (paddedSizeOf MAX_LEN 128 (segLens secs idxs).sum)
        (idxs.length * MAX_LEN) ∧
    (segLens secs idxs).sum ≤
      (compose_sampled_data sigma_p mels secs MAX_LEN idxs
        128).mels.length ∧
    (compose_sampled_data sigma_p mels secs MAX_LEN idxs
        128).sigma_p.length =
      (compose_sampled_data sigma_p mels secs MAX_LEN idxs
        128).mels.length := by
  obtain ⟨h1, h2, h3, h4, h5, h6⟩ :=
    compose_sampled_data_parts sigma_p mels secs MAX_LEN idxs 128 hok
      hidx
  have hlen1 : (compose_sampled_data sigma_p mels secs MAX_LEN idxs
      128).mels.length =
      min (paddedSizeOf MAX_LEN 128 (segLens secs idxs).sum)
        (idxs.length * MAX_LEN) := by
    rw [h1, List.length_take, List.length_append, List.length_replicate,
      h4]
    congr 1
    omega
  have hpf : 0 < max MAX_LEN 128 :=
    lt_of_lt_of_le (by norm_num) (le_max_right MAX_LEN 128)
  have hpad : (segLens secs idxs).sum ≤
      paddedSizeOf MAX_LEN 128 (segLens secs idxs).sum :=
    le_mul_ceil _ _ hpf
  refine ⟨hlen1, ?_, ?_⟩
  · rw [hlen1]
    exact le_min hpad h6
  · rw [h2, h1]
    simp [List.length_take, List.length_append, h4, h5]

/-- Witness for the amended C2 at the concrete dataset and indices of
the counterexample. -/
theorem C2_witness :
    (compose_sampled_data cdC2.sigma_p cdC2.mels cdC2.secs cdC2.max_len
        [0] 128).mels.length =
      min (paddedSizeOf cdC2.max_len 128 (segLens cdC2.secs [0]).sum)
        (([0] : List ℕ).length * cdC2.max_len) ∧
    (segLens cdC2.secs [0]).sum ≤
      (compose_sampled_data cdC2.sigma_p cdC2.mels cdC2.secs cdC2.max_len
        [0] 128).mels.length ∧
    (compose_sampled_data cdC2.sigma_p cdC2.mels cdC2.secs cdC2.max_len
        [0] 128).sigma_p.length =
      (compose_sampled_data cdC2.sigma_p cdC2.mels cdC2.secs cdC2.max_len
        [0] 128).mels.length :=
  C2_padding_amended cdC2.sigma_p cdC2.mels cdC2.secs cdC2.max_len [0]
    (by decide) (by decide)

/-- Claim C3: for every converted dataset and every ascending-sorted
sampled index list (repetitions allowed), the `n`-th batch segment —
the half-open range `[secs'[n], secs'[n+1])` of the batch's flat arrays —
equals, entry for entry and in order, the dataset's segment
`[secs[i], secs[i+1])` for the `n`-th sampled index `i`; a duplicated
index is copied once per occurrence. -/
theorem C3_batch_containment (sigma_p : List (List ℤ)) (mels : List CC)
    (secs : List ℕ) (MAX_LEN : ℕ) (idxs : List ℕ) (mpf : ℕ)
    (hok : datasetOkB mels.length sigma_p.length MAX_LEN secs = true)
    (hidx : sampledOkB secs idxs = true)
    (hsorted : sortedB idxs = true)
    (hmpf : 0 < mpf) :
    ∀ n, n < idxs.length →
      sliceList
        (compose_sampled_data sigma_p mels secs MAX_LEN idxs mpf).mels
        ((compose_sampled_data sigma_p mels secs MAX_LEN idxs
          mpf).secs.getD n 0)
        ((compose_sampled_data sigma_p mels secs MAX_LEN idxs
          mpf).secs.getD (n + 1) 0) =
        sliceList mels (secs.getD (idxs.getD n 0) 0)
          (secs.getD (idxs.getD n 0 + 1) 0) ∧
      sliceList
        (compose_sampled_data sigma_p mels secs MAX_LEN idxs
          mpf).sigma_p
        ((compose_sampled_data sigma_p mels secs MAX_LEN idxs
          mpf).secs.getD n 0)
        ((compose_sampled_data sigma_p mels secs MAX_LEN idxs
          mpf).secs.getD (n + 1) 0) =
        sliceList sigma_p (secs.getD (idxs.getD n 0) 0)
          (secs.getD (idxs.getD n 0 + 1) 0) := by
  obtain ⟨h1, h2, h3, h4, h5, h6⟩ :=
    compose_sampled_data_parts sigma_p mels secs MAX_LEN idxs mpf hok
      hidx
  intro n hn
  have hpf : 0 < max MAX_LEN mpf :=
    lt_of_lt_of_le hmpf (le_max_right MAX_LEN mpf)
  have hpad : (segLens secs idxs).sum ≤
      paddedSizeOf MAX_LEN mpf (segLens secs idxs).sum :=
    le_mul_ceil _ _ hpf
  have hlenslen : (segLens secs idxs).length = idxs.length := by
    simp [segLens]
  have hgn : (compose_sampled_data sigma_p mels secs MAX_LEN idxs
      mpf).secs.getD n 0 = ((segLens secs idxs).take n).sum := by
    rw [h3, cons_cumFrom_getD (segLens secs idxs) 0 n
      (by rw [hlenslen]; omega)]
    omega
  have hgn1 : (compose_sampled_data sigma_p mels secs MAX_LEN idxs
      mpf).secs.getD (n + 1) 0 =
      ((segLens secs idxs).take (n + 1)).sum := by
    rw [h3, cons_cumFrom_getD (segLens secs idxs) 0 (n + 1)
      (by rw [hlenslen]; omega)]
    omega
  have htklen : ((segLens secs idxs).take (n + 1)).sum ≤
      (segLens secs idxs).sum := sum_take_le _ _
  constructor
  · rw [h1, hgn, hgn1,
      sliceList_take _ _ _ _ (le_trans htklen hpad),
      sliceList_append_left _ _ _ _ (by rw [h4]; exact htklen)]
    have hfl := flatten_sliceList (melSegsOf mels secs idxs) n
      (by simp [melSegsOf]; omega)
    rw [melSegsOf_map_length hok hidx] at hfl
    rw [hfl, melSegsOf, getD_map_lt _ idxs n [] 0 hn]
  · rw [h2, hgn, hgn1,
      sliceList_take _ _ _ _ (le_trans htklen hpad),
      sliceList_append_left _ _ _ _ (by rw [h5]; exact htklen)]
    have hfl := flatten_sliceList (rowSegsOf sigma_p secs idxs) n
      (by simp [rowSegsOf]; omega)
    rw [rowSegsOf_map_length hok hidx] at hfl
    rw [hfl, rowSegsOf, getD_map_lt _ idxs n [] 0 hn]

/-- Witness for C3 at the concrete dataset, with the index 0 sampled
twice, evaluated at the second occurrence `n = 1` (a duplicate is copied
once per occurrence). -/
theorem C3_witness :
    sliceList
        (compose_sampled_data cdC2.sigma_p cdC2.mels cdC2.secs
          cdC2.max_len [0, 0] 128).mels
        ((compose_sampled_data cdC2.sigma_p cdC2.mels cdC2.secs
          cdC2.max_len [0, 0] 128).secs.getD 1 0)
        ((compose_sampled_data cdC2.sigma_p cdC2.mels cdC2.secs
          cdC2.max_len [0, 0] 128).secs.getD (1 + 1) 0) =
        sliceList cdC2.mels (cdC2.secs.getD (([0, 0] : List ℕ).getD 1 0) 0)
          (cdC2.secs.getD (([0, 0] : List ℕ).getD 1 0 + 1) 0) ∧
      sliceList
        (compose_sampled_data cdC2.sigma_p cdC2.mels cdC2.secs
          cdC2.max_len [0, 0] 128).sigma_p
        ((compose_sampled_data cdC2.sigma_p cdC2.mels cdC2.secs
          cdC2.max_len [0, 0] 128).secs.getD 1 0)
        ((compose_sampled_data cdC2.sigma_p cdC2.mels cdC2.secs
          cdC2.max_len [0, 0] 128).secs.getD (1 + 1) 0) =
        sliceList cdC2.sigma_p
          (cdC2.secs.getD (([0, 0] : List ℕ).getD 1 0) 0)
          (cdC2.secs.getD (([0, 0] : List ℕ).getD 1 0 + 1) 0) :=
  C3_batch_containment cdC2.sigma_p cdC2.mels cdC2.secs cdC2.max_len
    [0, 0] 128 (by decide) (by decide) (by decide) (by decide) 1
    (by decide)

/-- The value `segment_sum` gives one output slot: the sum of the `arr`
entries paired with segment index `k`. -/
def filterSum [AddCommMonoid α] (arr : List α) (indices : List ℕ)
    (k : ℕ) : α :=
  (((arr.zip indices).filter (fun p => p.2 = k)).map Prod.fst).sum

lemma segment_sum_eq_filterSum [AddCommMonoid α] (arr : List α)
    (indices : List ℕ) (num : ℕ) :
    segment_sum arr indices num =
      (List.range num).map (filterSum arr indices) := rfl

lemma filterSum_append [AddCommMonoid α] (a b : List α) (i j : List ℕ)
    (k : ℕ) (h : a.length = i.length) :
    filterSum (a ++ b) (i ++ j) k =
      filterSum a i k + filterSum b j k := by
  unfold filterSum
  rw [List.zip_append h, List.filter_append, List.map_append,
    List.sum_append]

lemma filterSum_replicate [AddCommMonoid α] (a : List α) (v k : ℕ) :
    filterSum a (List.replicate a.length v) k =
      if v = k then a.sum else 0 := by
  induction a with
  | nil => simp [filterSum]
  | cons x xs ih =>
    simp only [List.length_cons, List.replicate_succ, filterSum,
      List.zip_cons_cons, List.filter_cons] at ih ⊢
    by_cases hv : v = k
    · subst hv
      simp only [ite_true, eq_self_iff_true] at ih ⊢
      simp [ih]
    · simp only [hv, ite_false] at ih ⊢
      simp [hv, ih]

/-- The segment-index blocks: `sizes[0]` copies of `k0`, then `sizes[1]`
copies of `k0 + 1`, and so on. -/
def mkIndices (sizes : List ℕ) (k0 : ℕ) : List ℕ :=
  match sizes with
  | [] => []
  | s :: rest => List.replicate s k0 ++ mkIndices rest (k0 + 1)

lemma mkIndices_length (sizes : List ℕ) : ∀ k0,
    (mkIndices sizes k0).length = sizes.sum := by
  induction sizes with
  | nil => intro k0; rfl
  | cons s rest ih => intro k0; simp [mkIndices, ih]

lemma filterSum_mkIndices [AddCommMonoid α] (sizes : List ℕ) :
    ∀ (k0 : ℕ) (arr : List α) (k : ℕ), sizes.sum ≤ arr.length →
      filterSum arr (mkIndices sizes k0) k =
        if k0 ≤ k then
          ((arr.drop ((sizes.take (k - k0)).sum)).take
            (sizes.getD (k - k0) 0)).sum
        else 0 := by
  induction sizes with
  | nil =>
    intro k0 arr k _
    simp only [mkIndices, filterSum, List.zip_nil_right,
      List.filter_nil, List.map_nil, List.sum_nil]
    split
    · simp
    · rfl
  | cons s rest ih =>
    intro k0 arr k hsum
    simp only [List.sum_cons] at hsum
    have hs : s ≤ arr.length := by omega
    have htk : (arr.take s).length = s := by
      rw [List.length_take]; omega
    have hsplit : filterSum arr (mkIndices (s :: rest) k0) k =
        filterSum (arr.take s) (List.replicate s k0) k +
          filterSum (arr.drop s) (mkIndices rest (k0 + 1)) k := by
      conv_lhs => rw [← List.take_append_drop s arr]
      rw [mkIndices]
      exact filterSum_append _ _ _ _ k (by rw [htk, List.length_replicate])
    rw [hsplit]
    have hrep : filterSum (arr.take s) (List.replicate s k0) k =
        if k0 = k then (arr.take s).sum else 0 := by
      have h0 := filterSum_replicate (arr.take s) k0 k
      rw [htk] at h0
      exact h0
    have hrest := ih (k0 + 1) (arr.drop s) k
      (by rw [List.length_drop]; omega)
    rw [hrep, hrest]
    by_cases h1 : k < k0
    · rw [if_neg (by omega), if_neg (by omega), if_neg (by omega)]
      exact add_zero 0
    by_cases h2 : k = k0
    · subst h2
      rw [if_pos rfl, if_neg (by omega), if_pos (le_refl k)]
      simp only [Nat.sub_self, List.take_zero, List.sum_nil,
        List.drop_zero, List.getD_cons_zero]
      exact add_zero _
    · have hk0 : k0 + 1 ≤ k := by omega
      rw [if_neg (by omega), if_pos hk0, if_pos (by omega)]
      have hkk : k - k0 = (k - (k0 + 1)) + 1 := by omega
      rw [hkk]
      simp only [List.take_succ_cons, List.sum_cons, List.getD_cons_succ,
        List.drop_drop]
      exact zero_add _

/-- The shape `sum_sections` is called on (by
`local_value_rotated_kernel`): at least one segment, offsets starting at
zero, non-decreasing, with the final offset inside the array. -/
def secsOkB (arrLen : ℕ) (secs : List ℕ) : Bool :=
  decide (2 ≤ secs.length) &&
  (secs.getD 0 0 == 0) &&
  ((List.range (secs.length - 1)).all
    (fun k => decide (secs.getD k 0 ≤ secs.getD (k + 1) 0))) &&
  decide (secs.getD (secs.length - 1) 0 ≤ arrLen)

lemma secsOkB_two {arrLen : ℕ} {secs : List ℕ}
    (h : secsOkB arrLen secs = true) : 2 ≤ secs.length := by
  simp only [secsOkB, Bool.and_eq_true, decide_eq_true_eq] at h
  exact h.1.1.1

lemma secsOkB_head {arrLen : ℕ} {secs : List ℕ}
    (h : secsOkB arrLen secs = true) : secs.getD 0 0 = 0 := by
  simp only [secsOkB, Bool.and_eq_true, beq_iff_eq] at h
  exact h.1.1.2

lemma secsOkB_mono {arrLen : ℕ} {secs : List ℕ}
    (h : secsOkB arrLen secs = true) :
    ∀ k, k + 1 < secs.length → secs.getD k 0 ≤ secs.getD (k + 1) 0 := by
  simp only [secsOkB, Bool.and_eq_true, List.all_eq_true,
    List.mem_range, decide_eq_true_eq] at h
  intro k hk
  exact h.1.2 k (by omega)

lemma secsOkB_last {arrLen : ℕ} {secs : List ℕ}
    (h : secsOkB arrLen secs = true) :
    secs.getD (secs.length - 1) 0 ≤ arrLen := by
  simp only [secsOkB, Bool.and_eq_true, decide_eq_true_eq] at h
  exact h.2

/-- The `sizes` array of `sum_sections`: `secs[1:] - secs[:-1]`. -/
def sizesOf (secs : List ℕ) : List ℕ :=
  (secs.tail.zip secs.dropLast).map (fun p => p.1 - p.2)

lemma sum_sections_eq [AddCommMonoid α] (arr : List α) (secs : List ℕ) :
    sum_sections arr secs =
      segment_sum arr
        (repeatTRL (List.range (secs.length - 1)) (sizesOf secs)
          arr.length)
        (secs.length - 1) := rfl

lemma sizesOf_length (secs : List ℕ) :
    (sizesOf secs).length = secs.length - 1 := by
  simp [sizesOf, List.length_zip, List.length_tail, List.length_dropLast]

lemma zip_getD_lt (x : List γ) (y : List δ) :
    ∀ (k : ℕ) (dx : γ) (dy : δ), k < x.length → k < y.length →
      (x.zip y).getD k (dx, dy) = (x.getD k dx, y.getD k dy) := by
  induction x generalizing y with
  | nil => intro k dx dy hx _; simp at hx
  | cons a as ih =>
    intro k dx dy hx hy
    cases y with
    | nil => simp at hy
    | cons b bs =>
      cases k with
      | zero => simp [List.zip_cons_cons]
      | succ m =>
        simp only [List.zip_cons_cons, List.getD_cons_succ]
        exact ih bs m dx dy (by simpa using hx) (by simpa using hy)

lemma tail_getD (secs : List ℕ) (k : ℕ) (h : 0 < secs.length) :
    secs.tail.getD k 0 = secs.getD (k + 1) 0 := by
  cases secs with
  | nil => simp at h
  | cons a t => simp [List.getD_cons_succ]

lemma dropLast_getD (secs : List ℕ) (k : ℕ) (hk : k < secs.length - 1) :
    secs.dropLast.getD k 0 = secs.getD k 0 := by
  rw [List.dropLast_eq_take, List.getD_eq_getElem?_getD,
    List.getElem?_take, if_pos hk, ← List.getD_eq_getElem?_getD]

lemma sizesOf_getD (secs : List ℕ) (k : ℕ) (hk : k + 1 < secs.length) :
    (sizesOf secs).getD k 0 = secs.getD (k + 1) 0 - secs.getD k 0 := by
  unfold sizesOf
  rw [getD_map_lt _ _ k 0 (0, 0)
    (by rw [List.length_zip, List.length_tail, List.length_dropLast]
        omega)]
  rw [zip_getD_lt secs.tail secs.dropLast k 0 0
    (by rw [List.length_tail]; omega)
    (by rw [List.length_dropLast]; omega)]
  rw [tail_getD secs k (by omega), dropLast_getD secs k (by omega)]

lemma sum_take_succ_getD [AddCommMonoid β] (l : List β) (n : ℕ) (d : β)
    (h : n < l.length) :
    (l.take (n + 1)).sum = (l.take n).sum + l.getD n d := by
  rw [List.take_succ, List.sum_append, List.getElem?_eq_getElem h]
  simp [List.getD_eq_getElem?_getD, List.getElem?_eq_getElem h]

lemma sum_take_sizesOf {arrLen : ℕ} {secs : List ℕ}
    (h : secsOkB arrLen secs = true) :
    ∀ k, k ≤ secs.length - 1 →
      ((sizesOf secs).take k).sum = secs.getD k 0 := by
  intro k
  induction k with
  | zero =>
    intro _
    simp only [List.take_zero, List.sum_nil]
    exact (secsOkB_head h).symm
  | succ n ih =>
    intro hk
    have hlt : n < (sizesOf secs).length := by
      rw [sizesOf_length]; omega
    rw [sum_take_succ_getD (sizesOf secs) n 0 hlt, ih (by omega),
      sizesOf_getD secs n (by omega)]
    have := secsOkB_mono h n (by omega)
    omega

lemma range'_zip_flatten (sizes : List ℕ) : ∀ k0,
    (((List.range' k0 sizes.length).zip sizes).map
      (fun p => List.replicate p.2 p.1)).flatten =
      mkIndices sizes k0 := by
  induction sizes with
  | nil => intro k0; rfl
  | cons s rest ih =>
    intro k0
    rw [List.length_cons, List.range'_succ]
    simp only [List.zip_cons_cons, List.map_cons, List.flatten_cons,
      mkIndices]
    rw [ih (k0 + 1)]

lemma sum_sections_getD [AddCommMonoid α] (arr : List α) (secs : List ℕ)
    (h : secsOkB arr.length secs = true) :
    ∀ k, k < secs.length - 1 →
      (sum_sections arr secs).getD k 0 =
        ((arr.drop (secs.getD k 0)).take
          (secs.getD (k + 1) 0 - secs.getD k 0)).sum +
        (if secs.length - 2 = k then
          (arr.drop (secs.getD (secs.length - 1) 0)).sum else 0) := by
  intro k hk
  have hL := secsOkB_two h
  have hmono := secsOkB_mono h
  have hlast := secsOkB_last h
  have hsum : (sizesOf secs).sum = secs.getD (secs.length - 1) 0 := by
    have h1 := sum_take_sizesOf h (secs.length - 1) le_rfl
    rwa [List.take_of_length_le (by rw [sizesOf_length])] at h1
  have hsumle : (sizesOf secs).sum ≤ arr.length := by
    rw [hsum]; exact hlast
  have hbase0 : (((List.range (secs.length - 1)).zip
      (sizesOf secs)).map (fun p => List.replicate p.2 p.1)).flatten =
      mkIndices (sizesOf secs) 0 := by
    rw [List.range_eq_range']
    have hN : secs.length - 1 = (sizesOf secs).length :=
      (sizesOf_length secs).symm
    rw [hN]
    exact range'_zip_flatten (sizesOf secs) 0
  have hpadval : (List.range (secs.length - 1)).getLastD 0 =
      secs.length - 2 := by
    have h1 : secs.length - 1 = (secs.length - 2) + 1 := by omega
    rw [h1, List.range_succ, List.getLastD_concat]
  have hind : repeatTRL (List.range (secs.length - 1)) (sizesOf secs)
      arr.length =
      mkIndices (sizesOf secs) 0 ++
        List.replicate (arr.length - (sizesOf secs).sum)
          (secs.length - 2) := by
    unfold repeatTRL
    rw [hbase0, hpadval]
    show List.take arr.length (mkIndices (sizesOf secs) 0) ++
        List.replicate
          (arr.length - (mkIndices (sizesOf secs) 0).length)
          (secs.length - 2) = _
    have hmkle : (mkIndices (sizesOf secs) 0).length ≤ arr.length := by
      rw [mkIndices_length]; exact hsumle
    rw [List.take_of_length_le hmkle, mkIndices_length]
  rw [sum_sections_eq, segment_sum_eq_filterSum, hind]
  have hkrange : k < (List.range (secs.length - 1)).length := by
    simpa using hk
  rw [getD_map_lt _ (List.range (secs.length - 1)) k 0 0 hkrange]
  have hrg : (List.range (secs.length - 1)).getD k 0 = k := by
    rw [List.getD_eq_getElem?_getD, List.getElem?_eq_getElem hkrange]
    simp
  rw [hrg]
  have htksum : (arr.take (sizesOf secs).sum).length =
      (sizesOf secs).sum := by
    rw [List.length_take]; omega
  conv_lhs => rw [← List.take_append_drop (sizesOf secs).sum arr]
  rw [filterSum_append _ _ _ _ k (by rw [htksum, mkIndices_length])]
  rw [List.take_append_drop]
  have hrep2 : filterSum (arr.drop (sizesOf secs).sum)
      (List.replicate (arr.length - (sizesOf secs).sum)
        (secs.length - 2)) k =
      if secs.length - 2 = k then (arr.drop (sizesOf secs).sum).sum
      else 0 := by
    have h0 := filterSum_replicate (arr.drop (sizesOf secs).sum)
      (secs.length - 2) k
    rwa [List.length_drop] at h0
  have hfs := filterSum_mkIndices (sizesOf secs) 0
    (arr.take (sizesOf secs).sum) k (by rw [htksum])
  rw [if_pos (Nat.zero_le k), Nat.sub_zero] at hfs
  rw [hfs, hrep2]
  have ha := sum_take_sizesOf h k (by omega)
  have hb := sizesOf_getD secs k (by omega)
  rw [ha, hb]
  have hslice : (arr.take (sizesOf secs).sum).drop (secs.getD k 0) =
      ((arr.drop (secs.getD k 0)).take
        ((sizesOf secs).sum - secs.getD k 0)) :=
    List.drop_take _ _ _
  rw [hslice, List.take_take]
  have hchain := getD_mono_of_step secs hmono (k + 1)
    (secs.length - 1) (by omega) (by omega)
  have hmin : min (secs.getD (k + 1) 0 - secs.getD k 0)
      ((sizesOf secs).sum - secs.getD k 0) =
      secs.getD (k + 1) 0 - secs.getD k 0 := by
    rw [hsum]; omega
  rw [hmin, hsum]

/-- Claim C9: for every array and well-formed offsets, `sum_sections`
returns, for every segment but the last, exactly the sum of the array
over `[secs[k], secs[k+1])`; the last segment's slot receives the sum of
the array from `secs[-2]` to the end of the array — `jnp.repeat` with
`total_repeat_length` pads the segment-index vector with its final value,
so every entry past `secs[-1]` is folded into the last segment, and the
documented per-segment sums hold only because those entries are zero in
the padded datasets. -/
theorem C9_sum_sections [AddCommMonoid α] (arr : List α) (secs : List ℕ)
    (h : secsOkB arr.length secs = true) :
    (∀ k, k < secs.length - 2 →
      (sum_sections arr secs).getD k 0 =
        (sliceList arr (secs.getD k 0) (secs.getD (k + 1) 0)).sum) ∧
    (sum_sections arr secs).getD (secs.length - 2) 0 =
      (arr.drop (secs.getD (secs.length - 2) 0)).sum := by
  have hL := secsOkB_two h
  have hmono := secsOkB_mono h
  have hlast := secsOkB_last h
  constructor
  · intro k hk
    rw [sum_sections_getD arr secs h k (by omega),
      if_neg (by omega), add_zero]
    rfl
  · rw [sum_sections_getD arr secs h (secs.length - 2) (by omega),
      if_pos rfl]
    have hidx : secs.length - 2 + 1 = secs.length - 1 := by omega
    rw [hidx]
    have hchain := getD_mono_of_step secs hmono (secs.length - 2)
      (secs.length - 1) (by omega) (by omega)
    have hsplit : (arr.drop (secs.getD (secs.length - 2) 0)).take
        (secs.getD (secs.length - 1) 0 -
          secs.getD (secs.length - 2) 0) ++
        arr.drop (secs.getD (secs.length - 1) 0) =
        arr.drop (secs.getD (secs.length - 2) 0) := by
      conv_rhs => rw [← List.take_append_drop
        (secs.getD (secs.length - 1) 0 - secs.getD (secs.length - 2) 0)
        (arr.drop (secs.getD (secs.length - 2) 0))]
      congr 1
      rw [List.drop_drop]
      congr 1
      omega
    conv_rhs => rw [← hsplit]
    rw [List.sum_append]

/-- Witness for C9 at a concrete array and offsets (one entry of array
padding past the final offset, folded into the last segment). -/
theorem C9_witness :
    (∀ k, k < ([0, 2, 3] : List ℕ).length - 2 →
      (sum_sections ([1, 2, 3, 4, 5] : List ℤ) [0, 2, 3]).getD k 0 =
        (sliceList ([1, 2, 3, 4, 5] : List ℤ)
          (([0, 2, 3] : List ℕ).getD k 0)
          (([0, 2, 3] : List ℕ).getD (k + 1) 0)).sum) ∧
    (sum_sections ([1, 2, 3, 4, 5] : List ℤ) [0, 2, 3]).getD
        (([0, 2, 3] : List ℕ).length - 2) 0 =
      (([1, 2, 3, 4, 5] : List ℤ).drop
        (([0, 2, 3] : List ℕ).getD
          (([0, 2, 3] : List ℕ).length - 2) 0)).sum :=
  C9_sum_sections [1, 2, 3, 4, 5] [0, 2, 3] (by decide)

end NetketQSR
